import Mathlib

/-!
Verification of the frctl graph engine (src/frctl/graph/dag.py, node.py, edge.py).

The Python code is shallowly embedded: pydantic models become structures,
Python dicts become insertion-ordered association lists with unique keys,
raising exceptions becomes returning `Except GraphError`, and the networkx
calls (`is_directed_acyclic_graph`, `topological_sort` in networkx 3.x,
which delegates to `topological_generations`) are embedded as executable
functions over the edge-pair list of the `nx.DiGraph` that
`FederatedGraph._get_nx_graph` / `add_edge` build.
-/

namespace Frctl

/-- Decidable equality for `Except`, used to state results about operations
that model Python code which may raise. -/
instance instDecEqExcept {ε α : Type} [DecidableEq ε] [DecidableEq α] :
    DecidableEq (Except ε α) := fun x y =>
  match x, y with
  | .error a, .error b =>
    if h : a = b then .isTrue (by rw [h]) else .isFalse (by intro hc; cases hc; exact h rfl)
  | .error _, .ok _ => .isFalse (by intro hc; cases hc)
  | .ok _, .error _ => .isFalse (by intro hc; cases hc)
  | .ok a, .ok b =>
    if h : a = b then .isTrue (by rw [h]) else .isFalse (by intro hc; cases hc; exact h rfl)

/-! ## JSON-like metadata values

`metadata` fields are `Dict[str, Any]` in the source; values are modelled as
JSON-like values (the on-disk format is JSON and the hashing path serializes
through `json.dumps`). Floats are out of the modelled fragment. -/

mutual

/-- A JSON-like value, modelling the `Any`-typed metadata payloads. -/
inductive JValue where
  | null : JValue
  | bool (b : Bool) : JValue
  | num (n : Int) : JValue
  | str (s : String) : JValue
  | arr (xs : JArray) : JValue
  | obj (kvs : JObject) : JValue
deriving DecidableEq

/-- A JSON array of values. -/
inductive JArray where
  | nil : JArray
  | cons (hd : JValue) (tl : JArray) : JArray
deriving DecidableEq

/-- A JSON object: key/value entries in insertion order. -/
inductive JObject where
  | nil : JObject
  | cons (key : String) (val : JValue) (tl : JObject) : JObject
deriving DecidableEq

end

/-- Metadata mapping: a Python dict of string keys to values (insertion order
preserved, keys unique). -/
abbrev Metadata := List (String × JValue)

/-! ## Enumerations (node.py / edge.py) -/

/-- NodeType enum from node.py. -/
inductive NodeType where
  | SERVICE | LIBRARY | SCHEMA | ENDPOINT | COMPONENT
deriving DecidableEq

/-- The string value of a NodeType member (a `str` Enum in the source). -/
def NodeType.value : NodeType → String
  | .SERVICE => "Service"
  | .LIBRARY => "Library"
  | .SCHEMA => "Schema"
  | .ENDPOINT => "Endpoint"
  | .COMPONENT => "Component"

/-- Coercion of a string tag to a NodeType, as pydantic performs for a
`str` Enum field (lookup by enum value). -/
def NodeType.fromValue : String → Option NodeType
  | "Service" => some .SERVICE
  | "Library" => some .LIBRARY
  | "Schema" => some .SCHEMA
  | "Endpoint" => some .ENDPOINT
  | "Component" => some .COMPONENT
  | _ => none

/-- EdgeType enum from edge.py. -/
inductive EdgeType where
  | DEPENDS_ON | CONSUMES | OWNS | IMPLEMENTS
deriving DecidableEq

/-- The string value of an EdgeType member. -/
def EdgeType.value : EdgeType → String
  | .DEPENDS_ON => "DEPENDS_ON"
  | .CONSUMES => "CONSUMES"
  | .OWNS => "OWNS"
  | .IMPLEMENTS => "IMPLEMENTS"

/-- Coercion of a string tag to an EdgeType (pydantic enum-by-value lookup). -/
def EdgeType.fromValue : String → Option EdgeType
  | "DEPENDS_ON" => some .DEPENDS_ON
  | "CONSUMES" => some .CONSUMES
  | "OWNS" => some .OWNS
  | "IMPLEMENTS" => some .IMPLEMENTS
  | _ => none

/-! ## Python string primitives

`str.lower`, `str.strip`, `str.replace` (single-character patterns) and the
code-point comparison used by `sorted` are modelled character-wise. -/

/-- Python `str.strip()` whitespace set (ASCII part). -/
def pyIsSpace (c : Char) : Bool :=
  c = ' ' || c = '\t' || c = '\n' || c = '\x0d' || c = '\x0b' || c = '\x0c'

/-- Python `str.strip()`. -/
def pyStrip (s : String) : String :=
  ⟨((s.data.dropWhile pyIsSpace).reverse.dropWhile pyIsSpace).reverse⟩

/-- Python `str.lower()` (ASCII fragment). -/
def pyLower (s : String) : String := ⟨s.data.map Char.toLower⟩

/-- Python `str.replace(old, new)` for one-character old/new, which replaces
every occurrence. -/
def pyReplaceChar (old new : Char) (s : String) : String :=
  ⟨s.data.map (fun c => if c = old then new else c)⟩

/-- Lexicographic code-point comparison of character lists, i.e. Python
string `<`. -/
def charListLt : List Char → List Char → Bool
  | [], [] => false
  | [], _ :: _ => true
  | _ :: _, [] => false
  | c :: cs, d :: ds =>
    if c.toNat < d.toNat then true
    else if d.toNat < c.toNat then false
    else charListLt cs ds

/-- Python string `<` (code-point lexicographic). -/
def strLt (a b : String) : Bool := charListLt a.data b.data

/-- Python tuple comparison on string pairs, as used by
`sorted(self.edges, key=lambda e: (e.source, e.target))`. -/
def pairLt (a b : String × String) : Bool :=
  strLt a.1 b.1 || (a.1 == b.1 && strLt a.2 b.2)

/-! ## Data model: Node, Edge, FederatedGraph -/

/-- A node (node.py), after pydantic validation. -/
structure Node where
  id : String
  type : NodeType
  name : String
  metadata : Metadata
deriving DecidableEq

/-- An edge (edge.py), after pydantic validation. -/
structure Edge where
  source : String
  target : String
  edge_type : EdgeType
  metadata : Metadata
  contract : Option String
deriving DecidableEq

/-- The FederatedGraph state (dag.py): `nodes` is a Python dict from id to
Node (modelled as an insertion-ordered association list with unique keys),
`edges` a list, `metadata` a dict. -/
structure FederatedGraph where
  nodes : List (String × Node)
  edges : List Edge
  metadata : Metadata
deriving DecidableEq

/-- The empty graph `FederatedGraph()` (all default factories). -/
def emptyGraph : FederatedGraph := ⟨[], [], []⟩

/-- Errors raised by the embedded code. `valueError` models `ValueError`,
`validationError` models pydantic's ValidationError, `nxUnfeasible` models
networkx's NetworkXUnfeasible. -/
inductive GraphError where
  | valueError (msg : String)
  | nodeNotFound (msg : String)
  | cycleDetected (msg : String)
  | validationError (msg : String)
  | nxUnfeasible (msg : String)
deriving DecidableEq

namespace FederatedGraph

/-- Membership test `node_id in self.nodes` (dict key containment). -/
def containsNode (g : FederatedGraph) (id : String) : Bool :=
  g.nodes.any (fun p => p.1 == id)

/-- Dict lookup `self.nodes.get(node_id)`. -/
def get_node (g : FederatedGraph) (node_id : String) : Option Node :=
  (g.nodes.find? (fun p => p.1 == node_id)).map (fun p => p.2)

/-- FederatedGraph.add_node. -/
def add_node (g : FederatedGraph) (node : Node) : Except GraphError FederatedGraph :=
  if g.containsNode node.id then
    .error (.valueError ("Node with ID '" ++ node.id ++ "' already exists"))
  else
    .ok { g with nodes := g.nodes ++ [(node.id, node)] }

/-- FederatedGraph.remove_node. -/
def remove_node (g : FederatedGraph) (node_id : String) : Except GraphError FederatedGraph :=
  if ¬ g.containsNode node_id then
    .error (.nodeNotFound ("Node '" ++ node_id ++ "' not found"))
  else
    .ok { g with
          nodes := g.nodes.filter (fun p => ¬ p.1 == node_id),
          edges := g.edges.filter (fun e => ¬ e.source == node_id && ¬ e.target == node_id) }

/-- FederatedGraph.remove_edge (never raises). -/
def remove_edge (g : FederatedGraph) (source target : String) : FederatedGraph :=
  { g with edges := g.edges.filter (fun e => ¬ (e.source == source && e.target == target)) }

/-- FederatedGraph.get_edge: first edge in list order matching the pair. -/
def get_edge (g : FederatedGraph) (source target : String) : Option Edge :=
  g.edges.find? (fun e => e.source == source && e.target == target)

/-- FederatedGraph.node_count. -/
def node_count (g : FederatedGraph) : Nat := g.nodes.length

/-- FederatedGraph.edge_count. -/
def edge_count (g : FederatedGraph) : Nat := g.edges.length

end FederatedGraph

/-! ## The networkx directed graph induced by the edge list

`add_edge` and `_get_nx_graph` build an `nx.DiGraph` from the edges.  A
DiGraph keeps each (source, target) arc once, at its first insertion
position; nodes are kept in first-insertion order. -/

/-- The (source, target) pairs of an edge list. -/
def edgePairs (es : List Edge) : List (String × String) :=
  es.map (fun e => (e.source, e.target))

/-- Deduplication worker: `seen` are the arcs already inserted. -/
def dedupPairsAux (seen : List (String × String)) :
    List (String × String) → List (String × String)
  | [] => []
  | p :: ps =>
    if p ∈ seen then dedupPairsAux seen ps
    else p :: dedupPairsAux (seen ++ [p]) ps

/-- Deduplicate a pair list keeping first occurrences: the arc set of the
`nx.DiGraph` built by repeated `G.add_edge`. -/
def dedupPairs (ps : List (String × String)) : List (String × String) :=
  dedupPairsAux [] ps

/-- Successors of `u` in arc-list order (`G.neighbors(u)` on the DiGraph
when applied to the deduplicated arc list). -/
def succs (ps : List (String × String)) (u : String) : List String :=
  (ps.filter (fun p => p.1 == u)).map (fun p => p.2)

/-- Bounded reachability along arcs (the DFS/BFS reachability underlying the
cycle check): true iff a walk of at most `n` steps joins `u` to `v`. -/
def reachB (ps : List (String × String)) : Nat → String → String → Bool
  | 0, u, v => u == v
  | n + 1, u, v => u == v || (succs ps u).any (fun w => reachB ps n w v)

/-- Executable cycle test: some arc (u, v) closes a cycle, i.e. v reaches u.
Fuel `ps.length` suffices (proved below). -/
def hasCycleB (ps : List (String × String)) : Bool :=
  ps.any (fun p => reachB ps ps.length p.2 p.1)

/-- Model of `nx.is_directed_acyclic_graph` on the DiGraph with the given
arcs: true iff there is no directed cycle. -/
def is_directed_acyclic_graph (ps : List (String × String)) : Bool :=
  ! hasCycleB ps

/-- FederatedGraph.add_edge: validates both endpoints, then performs the
trial insertion and cycle check on the DiGraph over current + new edge. -/
def FederatedGraph.add_edge (g : FederatedGraph) (edge : Edge) :
    Except GraphError FederatedGraph :=
  if ¬ g.containsNode edge.source then
    .error (.nodeNotFound ("Source node '" ++ edge.source ++ "' not found"))
  else if ¬ g.containsNode edge.target then
    .error (.nodeNotFound ("Target node '" ++ edge.target ++ "' not found"))
  else
    let temp_edges := g.edges ++ [edge]
    if is_directed_acyclic_graph (dedupPairs (edgePairs temp_edges)) then
      .ok { g with edges := temp_edges }
    else
      .error (.cycleDetected
        ("Adding edge " ++ edge.source ++ " -> " ++ edge.target ++ " would create a cycle"))

/-! ## The networkx node list of `_get_nx_graph`

Nodes are inserted from `self.nodes` in dict order, then `G.add_edge` adds
any missing endpoints in edge order. -/

/-- Append an element if it is not already present (DiGraph node insertion). -/
def addIfMissing (acc : List String) (x : String) : List String :=
  if x ∈ acc then acc else acc ++ [x]

/-- Node order of the DiGraph built by `_get_nx_graph`. -/
def FederatedGraph.nxNodes (g : FederatedGraph) : List String :=
  g.edges.foldl (fun acc e => addIfMissing (addIfMissing acc e.source) e.target)
    (g.nodes.map (fun p => p.1))

/-- Arc list of the DiGraph built by `_get_nx_graph`. -/
def FederatedGraph.nxPairs (g : FederatedGraph) : List (String × String) :=
  dedupPairs (edgePairs g.edges)

/-! ## networkx topological sort (networkx 3.x)

`nx.topological_sort` yields the concatenation of
`nx.topological_generations`: Kahn's algorithm by generations, where each
generation is emitted in discovery order.  `indegree_map` is modelled as a
total function (a vertex is "in the map" iff its count is positive); the
`del` at count zero and the KeyError guard are invisible under this reading
because a vertex is decremented exactly once per distinct in-neighbor. -/

/-- In-degree of `v` in the DiGraph with the given (deduplicated) arcs. -/
def inDeg (ps : List (String × String)) (v : String) : Nat :=
  (ps.filter (fun p => p.2 == v)).length

/-- The inner `for child in G.neighbors(node)` loop of
`topological_generations`: decrement each child, appending the ones that hit
zero to the next generation. -/
def processChildren : List String → (String → Nat) → List String →
    ((String → Nat) × List String)
  | [], indeg, zero => (indeg, zero)
  | c :: cs, indeg, zero =>
    if indeg c - 1 = 0 then
      processChildren cs (fun v => if v = c then indeg c - 1 else indeg v) (zero ++ [c])
    else
      processChildren cs (fun v => if v = c then indeg c - 1 else indeg v) zero

/-- The `for node in this_generation` loop of `topological_generations`. -/
def processGen (ps : List (String × String)) : List String → (String → Nat) →
    List String → ((String → Nat) × List String)
  | [], indeg, zero => (indeg, zero)
  | n :: rest, indeg, zero =>
    let r := processChildren (succs ps n) indeg zero
    processGen ps rest r.1 r.2

/-- The `while zero_indegree` loop, with fuel for termination (the loop
emits at least one fresh node per iteration, so `ns.length + 1` fuel is
enough; proved below). Returns the concatenated generations and the final
in-degree function. -/
def kahnLoop (ps : List (String × String)) : Nat → List String → (String → Nat) →
    (List String × (String → Nat))
  | _, [], indeg => ([], indeg)
  | 0, _ :: _, indeg => ([], indeg)
  | fuel + 1, n :: gen, indeg =>
    let r := processGen ps (n :: gen) indeg []
    let rest := kahnLoop ps fuel r.2 r.1
    ((n :: gen) ++ rest.1, rest.2)

/-- Model of `list(nx.topological_sort(G))`: `none` models the
NetworkXUnfeasible raise (cycle: `indegree_map` nonempty at loop exit). -/
def nx_topological_sort (ns : List String) (ps : List (String × String)) :
    Option (List String) :=
  let zero0 := ns.filter (fun v => inDeg ps v == 0)
  let r := kahnLoop ps (ns.length + 1) zero0 (fun v => inDeg ps v)
  if ns.any (fun v => ¬ r.2 v == 0) then none else some r.1

/-- FederatedGraph.topological_sort: defensive acyclicity check, then the
networkx sort. -/
def FederatedGraph.topological_sort (g : FederatedGraph) :
    Except GraphError (List String) :=
  if ¬ is_directed_acyclic_graph g.nxPairs then
    .error (.cycleDetected "Graph contains cycles")
  else
    match nx_topological_sort g.nxNodes g.nxPairs with
    | some l => .ok l
    | none => .error (.nxUnfeasible "Graph contains a cycle")

/-- FederatedGraph.validate: non-throwing self-check, in source order (cycle
check first, then per-edge endpoint checks). -/
def FederatedGraph.validate (g : FederatedGraph) : List String :=
  (if ¬ is_directed_acyclic_graph g.nxPairs then ["Graph contains cycles"] else [])
    ++ g.edges.flatMap (fun e =>
      (if ¬ g.containsNode e.source then
        ["Edge references non-existent source node: " ++ e.source] else [])
      ++ (if ¬ g.containsNode e.target then
        ["Edge references non-existent target node: " ++ e.target] else []))

/-! ## Identifier generation (generate_purl) -/

/-- generate_purl from dag.py:
`safe_name = name.lower().replace(" ", "-").replace("_", "-")`. -/
def generate_purl (name : String) : String :=
  let safe_name := pyReplaceChar '_' '-' (pyReplaceChar ' ' '-' (pyLower name))
  "pkg:frctl/" ++ safe_name ++ "@local"

/-- True for the separator characters the spec says are collapsed. -/
def isSepChar (c : Char) : Bool := c = ' ' || c = '_'

/-- Run-collapsing worker: the flag records whether the previous character
was a separator (in which case further separators emit nothing). -/
def collapseRunsAux : Bool → List Char → List Char
  | _, [] => []
  | inRun, c :: cs =>
    if isSepChar c then
      if inRun then collapseRunsAux true cs else '-' :: collapseRunsAux true cs
    else c :: collapseRunsAux false cs

/-- Replace every run of spaces/underscores by a single hyphen. -/
def collapseRuns (l : List Char) : List Char := collapseRunsAux false l

/-- Modelled from the spec: `generate_id` as the spec describes it —
"lowercase the input, replace any run of spaces or underscores with a single
hyphen, trim, and wrap in the canonical identifier template
(pkg:namespace/slug@local)".  Used only to compare the spec's description
against `generate_purl`. -/
def generate_id_spec (name : String) : String :=
  let slug := pyStrip ⟨collapseRuns (pyLower name).data⟩
  "pkg:frctl/" ++ slug.data.asString ++ "@local"

/-! ## The public mutation API and reachable states -/

/-- A public mutation call. -/
inductive Mutation where
  | addNode (n : Node)
  | addEdge (e : Edge)
  | removeNode (id : String)
  | removeEdge (source target : String)

/-- Apply one public mutation (remove_edge never raises). -/
def applyMutation (g : FederatedGraph) : Mutation → Except GraphError FederatedGraph
  | .addNode n => g.add_node n
  | .addEdge e => g.add_edge e
  | .removeNode id => g.remove_node id
  | .removeEdge s t => .ok (g.remove_edge s t)

/-- Graph states reachable from the empty graph by successful public
mutations. -/
inductive ApiReachable : FederatedGraph → Prop where
  | empty : ApiReachable emptyGraph
  | step {g : FederatedGraph} {m : Mutation} {g2 : FederatedGraph} :
      ApiReachable g → applyMutation g m = .ok g2 → ApiReachable g2

/-! ## Relational semantics of reachability and acyclicity -/

/-- The step relation of an arc list. -/
def stepRel (ps : List (String × String)) (a b : String) : Prop := (a, b) ∈ ps

/-- Reachability (reflexive-transitive closure of the arcs). -/
def Reaches (ps : List (String × String)) (u v : String) : Prop :=
  Relation.ReflTransGen (stepRel ps) u v

/-- Acyclicity of the arc relation: no vertex lies on a nonempty directed
cycle. -/
def Acyclic (ps : List (String × String)) : Prop :=
  ∀ v, ¬ Relation.TransGen (stepRel ps) v v

/-- The structural invariant of the data model: the edge set is acyclic and
every edge references two nodes present in `nodes`; dict keys are unique. -/
structure GraphInv (g : FederatedGraph) : Prop where
  acyclic : Acyclic (edgePairs g.edges)
  endpoints : ∀ e ∈ g.edges, g.containsNode e.source = true ∧ g.containsNode e.target = true
  keys : (g.nodes.map (fun p => p.1)).Nodup

/-- A walk along arcs: `WalkOK ps u l v` holds when successive steps through
the intermediate vertices `l` join `u` to `v`. -/
def WalkOK (ps : List (String × String)) : String → List String → String → Prop
  | u, [], v => u = v
  | u, w :: l, v => (u, w) ∈ ps ∧ WalkOK ps w l v

theorem mem_succs {ps : List (String × String)} {u w : String} :
    w ∈ succs ps u ↔ (u, w) ∈ ps := by
  unfold succs
  simp only [List.mem_map, List.mem_filter]
  constructor
  · rintro ⟨p, ⟨hp, he⟩, rfl⟩
    have h1 : p.1 = u := by simpa using he
    rw [← h1, Prod.mk.eta]
    exact hp
  · intro h
    exact ⟨(u, w), ⟨h, by simp⟩, rfl⟩

theorem walk_reaches {ps : List (String × String)} :
    ∀ {u : String} {l : List String} {v : String}, WalkOK ps u l v → Reaches ps u v := by
  intro u l
  induction l generalizing u with
  | nil =>
    intro v h
    cases h
    exact Relation.ReflTransGen.refl
  | cons w l ih =>
    intro v h
    obtain ⟨hstep, hrest⟩ := h
    exact Relation.ReflTransGen.head hstep (ih hrest)

theorem walk_append {ps : List (String × String)} :
    ∀ {u : String} {l : List String} {b c : String},
      WalkOK ps u l b → (b, c) ∈ ps → WalkOK ps u (l ++ [c]) c := by
  intro u l
  induction l generalizing u with
  | nil =>
    intro b c h hs
    cases h
    exact ⟨hs, rfl⟩
  | cons w l ih =>
    intro b c h hs
    exact ⟨h.1, ih h.2 hs⟩

theorem reaches_walk {ps : List (String × String)} {u v : String}
    (h : Reaches ps u v) : ∃ l, WalkOK ps u l v := by
  induction h with
  | refl => exact ⟨[], rfl⟩
  | tail _ hstep ih =>
    obtain ⟨l, hl⟩ := ih
    exact ⟨l ++ [_], walk_append hl hstep⟩

theorem walk_of_split {ps : List (String × String)} :
    ∀ (l1 : List String) {u u2 : String} {l2 : List String} {v : String},
      WalkOK ps u (l1 ++ u2 :: l2) v → WalkOK ps u2 l2 v := by
  intro l1
  induction l1 with
  | nil =>
    intro u u2 l2 v h
    exact h.2
  | cons w l ih =>
    intro u u2 l2 v h
    exact ih h.2

theorem walk_shorten {ps : List (String × String)} :
    ∀ (n : Nat) {u : String} (l : List String) {v : String}, l.length ≤ n →
      WalkOK ps u l v → ∃ l2, WalkOK ps u l2 v ∧ (u :: l2).Nodup ∧ l2 ⊆ l := by
  intro n
  induction n with
  | zero =>
    intro u l v hlen h
    have : l = [] := List.length_eq_zero.mp (Nat.le_zero.mp hlen)
    subst this
    exact ⟨[], h, List.nodup_singleton u, List.Subset.refl _⟩
  | succ n ih =>
    intro u l v hlen h
    by_cases hu : u ∈ l
    · obtain ⟨l1, l2, rfl⟩ := List.append_of_mem hu
      have h2 : WalkOK ps u l2 v := walk_of_split l1 h
      have hlen2 : l2.length ≤ n := by
        have := List.length_append l1 (u :: l2)
        simp only [List.length_cons] at this
        omega
      obtain ⟨l3, hw, hn, hsub⟩ := ih l2 hlen2 h2
      exact ⟨l3, hw, hn, fun x hx => List.mem_append_right l1 (List.mem_cons_of_mem u (hsub hx))⟩
    · cases l with
      | nil => exact ⟨[], h, List.nodup_singleton u, List.Subset.refl _⟩
      | cons w l =>
        have hlen2 : l.length ≤ n := by
          simp only [List.length_cons] at hlen
          omega
        obtain ⟨l3, hw, hn, hsub⟩ := ih l hlen2 h.2
        refine ⟨w :: l3, ⟨h.1, hw⟩, ?_, ?_⟩
        · refine List.nodup_cons.mpr ⟨?_, hn⟩
          intro hmem
          rcases List.mem_cons.mp hmem with hul | hul
          · exact hu (by simp [hul])
          · exact hu (List.mem_cons_of_mem w (hsub hul))
        · intro x hx
          rcases List.mem_cons.mp hx with rfl | hx
          · exact List.mem_cons_self x l
          · exact List.mem_cons_of_mem w (hsub hx)

theorem walk_sources {ps : List (String × String)} :
    ∀ {u : String} (l : List String) {v : String}, WalkOK ps u l v →
      ∀ x ∈ (u :: l).dropLast, x ∈ ps.map (fun p => p.1) := by
  intro u l
  induction l generalizing u with
  | nil =>
    intro v _ x hx
    simp at hx
  | cons w l ih =>
    intro v h x hx
    rw [show ((u :: w :: l).dropLast) = u :: (w :: l).dropLast from rfl] at hx
    rcases List.mem_cons.mp hx with rfl | hx
    · exact List.mem_map.mpr ⟨(x, w), h.1, rfl⟩
    · exact ih h.2 x hx

theorem nodup_subset_length {l l2 : List String} (hn : l.Nodup) (hs : l ⊆ l2) :
    l.length ≤ l2.length := by
  have h1 : l.toFinset.card = l.length := List.toFinset_card_of_nodup hn
  have h2 : l.toFinset ⊆ l2.toFinset := by
    intro x hx
    simp only [List.mem_toFinset] at hx ⊢
    exact hs hx
  have h3 := Finset.card_le_card h2
  have h4 : l2.toFinset.card ≤ l2.length := l2.toFinset_card_le
  omega

theorem walk_length_bound {ps : List (String × String)} {u : String} {l : List String}
    {v : String} (h : WalkOK ps u l v) (hn : (u :: l).Nodup) : l.length ≤ ps.length := by
  have hsub : (u :: l).dropLast ⊆ ps.map (fun p => p.1) := fun x hx => walk_sources l h x hx
  have hnd : (u :: l).dropLast.Nodup := (List.dropLast_sublist (u :: l)).nodup hn
  have hle := nodup_subset_length hnd hsub
  simp only [List.length_dropLast, List.length_cons, List.length_map] at hle
  omega

theorem reachB_iff_walk {ps : List (String × String)} :
    ∀ (n : Nat) (u v : String),
      reachB ps n u v = true ↔ ∃ l, l.length ≤ n ∧ WalkOK ps u l v := by
  intro n
  induction n with
  | zero =>
    intro u v
    simp only [reachB, beq_iff_eq]
    constructor
    · intro h
      exact ⟨[], Nat.le_refl 0, h⟩
    · rintro ⟨l, hl, hw⟩
      have : l = [] := List.length_eq_zero.mp (Nat.le_zero.mp hl)
      subst this
      exact hw
  | succ n ih =>
    intro u v
    simp only [reachB, Bool.or_eq_true, beq_iff_eq, List.any_eq_true]
    constructor
    · rintro (rfl | ⟨w, hmem, hr⟩)
      · exact ⟨[], Nat.zero_le _, rfl⟩
      · obtain ⟨l, hl, hw⟩ := (ih w v).mp hr
        exact ⟨w :: l, by simpa using Nat.succ_le_succ hl, mem_succs.mp hmem, hw⟩
    · rintro ⟨l, hl, hw⟩
      cases l with
      | nil => exact Or.inl hw
      | cons w l =>
        refine Or.inr ⟨w, mem_succs.mpr hw.1, (ih w v).mpr ⟨l, ?_, hw.2⟩⟩
        simp only [List.length_cons] at hl
        omega

theorem reaches_iff_reachB {ps : List (String × String)} {u v : String} :
    Reaches ps u v ↔ reachB ps ps.length u v = true := by
  constructor
  · intro h
    obtain ⟨l, hw⟩ := reaches_walk h
    obtain ⟨l2, hw2, hn2, _⟩ := walk_shorten l.length l (Nat.le_refl _) hw
    exact (reachB_iff_walk ps.length u v).mpr ⟨l2, walk_length_bound hw2 hn2, hw2⟩
  · intro h
    obtain ⟨l, _, hw⟩ := (reachB_iff_walk ps.length u v).mp h
    exact walk_reaches hw

theorem transGen_iff_arc_reaches {ps : List (String × String)} {v : String} :
    Relation.TransGen (stepRel ps) v v ↔ ∃ w, (v, w) ∈ ps ∧ Reaches ps w v := by
  rw [Relation.TransGen.head'_iff]
  constructor
  · rintro ⟨w, h1, h2⟩
    exact ⟨w, h1, h2⟩
  · rintro ⟨w, h1, h2⟩
    exact ⟨w, h1, h2⟩

theorem hasCycleB_iff {ps : List (String × String)} :
    hasCycleB ps = true ↔ ∃ v, Relation.TransGen (stepRel ps) v v := by
  unfold hasCycleB
  rw [List.any_eq_true]
  constructor
  · rintro ⟨p, hmem, hr⟩
    refine ⟨p.1, transGen_iff_arc_reaches.mpr ⟨p.2, ?_, reaches_iff_reachB.mpr hr⟩⟩
    rw [Prod.mk.eta]
    exact hmem
  · rintro ⟨v, hc⟩
    obtain ⟨w, harc, hreach⟩ := transGen_iff_arc_reaches.mp hc
    exact ⟨(v, w), harc, by simpa using reaches_iff_reachB.mp hreach⟩

theorem isDag_iff_acyclic {ps : List (String × String)} :
    is_directed_acyclic_graph ps = true ↔ Acyclic ps := by
  unfold is_directed_acyclic_graph Acyclic
  rw [Bool.not_eq_true', ← Bool.not_eq_true, hasCycleB_iff]
  push_neg
  rfl

theorem acyclic_mono {ps qs : List (String × String)}
    (hsub : ∀ p, p ∈ qs → p ∈ ps) (h : Acyclic ps) : Acyclic qs := by
  intro v hv
  exact h v (hv.mono (fun a b hab => hsub (a, b) hab))

theorem mem_dedupPairsAux : ∀ (ps seen : List (String × String)) (q : String × String),
    q ∈ dedupPairsAux seen ps ↔ q ∈ ps ∧ q ∉ seen := by
  intro ps
  induction ps with
  | nil =>
    intro seen q
    simp [dedupPairsAux]
  | cons p ps ih =>
    intro seen q
    unfold dedupPairsAux
    by_cases hp : p ∈ seen
    · rw [if_pos hp, ih]
      constructor
      · rintro ⟨h1, h2⟩
        exact ⟨List.mem_cons_of_mem p h1, h2⟩
      · rintro ⟨h1, h2⟩
        rcases List.mem_cons.mp h1 with rfl | h1
        · exact absurd hp h2
        · exact ⟨h1, h2⟩
    · rw [if_neg hp]
      simp only [List.mem_cons, ih]
      constructor
      · rintro (rfl | ⟨h1, h2⟩)
        · exact ⟨Or.inl rfl, hp⟩
        · refine ⟨Or.inr h1, fun hc => h2 (List.mem_append_left _ hc)⟩
      · rintro ⟨h1, h2⟩
        rcases h1 with rfl | h1
        · exact Or.inl rfl
        · by_cases hqp : q = p
          · exact Or.inl hqp
          · refine Or.inr ⟨h1, fun hc => ?_⟩
            rcases List.mem_append.mp hc with hc1 | hc1
            · exact h2 hc1
            · exact hqp (by simpa using hc1)

theorem mem_dedupPairs (ps : List (String × String)) (p : String × String) :
    p ∈ dedupPairs ps ↔ p ∈ ps := by
  unfold dedupPairs
  rw [mem_dedupPairsAux]
  simp

theorem nodup_dedupPairsAux : ∀ (ps seen : List (String × String)),
    (dedupPairsAux seen ps).Nodup := by
  intro ps
  induction ps with
  | nil =>
    intro seen
    simp [dedupPairsAux]
  | cons p ps ih =>
    intro seen
    unfold dedupPairsAux
    by_cases hp : p ∈ seen
    · rw [if_pos hp]
      exact ih seen
    · rw [if_neg hp]
      refine List.nodup_cons.mpr ⟨?_, ih (seen ++ [p])⟩
      intro hmem
      obtain ⟨_, h2⟩ := (mem_dedupPairsAux ps (seen ++ [p]) p).mp hmem
      exact h2 (List.mem_append_right _ (by simp))

theorem nodup_dedupPairs (ps : List (String × String)) : (dedupPairs ps).Nodup :=
  nodup_dedupPairsAux ps []

theorem acyclic_dedup_iff {ps : List (String × String)} :
    Acyclic (dedupPairs ps) ↔ Acyclic ps := by
  constructor
  · exact acyclic_mono (fun p hp => (mem_dedupPairs ps p).mpr hp)
  · exact acyclic_mono (fun p hp => (mem_dedupPairs ps p).mp hp)

theorem reaches_append_single {ps : List (String × String)} {s t : String} :
    ∀ {a b : String}, Reaches (ps ++ [(s, t)]) a b →
      Reaches ps a b ∨ (Reaches ps a s ∧ Reaches (ps ++ [(s, t)]) t b) := by
  intro a b h
  induction h using Relation.ReflTransGen.head_induction_on with
  | refl => exact Or.inl Relation.ReflTransGen.refl
  | head hstep _ ih =>
    rename_i x y hxy
    rcases List.mem_append.mp hstep with hx | hx
    · rcases ih with hcase | ⟨hys, htb⟩
      · exact Or.inl (Relation.ReflTransGen.head hx hcase)
      · exact Or.inr ⟨Relation.ReflTransGen.head hx hys, htb⟩
    · have hpair : x = s ∧ y = t := by
        simpa [Prod.ext_iff] using hx
      obtain ⟨rfl, rfl⟩ := hpair
      exact Or.inr ⟨Relation.ReflTransGen.refl, hxy⟩

theorem reaches_append_target_source {ps : List (String × String)} {s t : String}
    (h : Reaches (ps ++ [(s, t)]) t s) : Reaches ps t s := by
  rcases reaches_append_single h with hc | ⟨hc, _⟩
  · exact hc
  · exact hc

theorem acyclic_append_iff {ps : List (String × String)} {s t : String}
    (hacy : Acyclic ps) : Acyclic (ps ++ [(s, t)]) ↔ ¬ Reaches ps t s := by
  constructor
  · intro h hreach
    have harc : stepRel (ps ++ [(s, t)]) s t := List.mem_append_right ps (by simp)
    have hlift : Relation.ReflTransGen (stepRel (ps ++ [(s, t)])) t s :=
      hreach.mono (fun a b hab => List.mem_append_left [(s, t)] hab)
    exact h s (Relation.TransGen.head' harc hlift)
  · intro hnr v hcyc
    obtain ⟨w, harc, hreach⟩ := transGen_iff_arc_reaches.mp hcyc
    rcases List.mem_append.mp harc with hv | hv
    · rcases reaches_append_single hreach with hc | ⟨hc, htb⟩
      · exact hacy v (Relation.TransGen.head' hv hc)
      · have hlift : Relation.ReflTransGen (stepRel (ps ++ [(s, t)])) w s :=
          hc.mono (fun a b hab => List.mem_append_left [(s, t)] hab)
        have harc2 : stepRel (ps ++ [(s, t)]) v w := List.mem_append_left [(s, t)] hv
        exact hnr (reaches_append_target_source (Relation.ReflTransGen.trans htb
          (Relation.ReflTransGen.head harc2 hlift)))
    · have hpair : v = s ∧ w = t := by
        simpa [Prod.ext_iff] using hv
      obtain ⟨rfl, rfl⟩ := hpair
      exact hnr (reaches_append_target_source hreach)

/-! ## Invariant preservation under the public mutation API -/

theorem containsNode_iff_keyMem {g : FederatedGraph} {s : String} :
    g.containsNode s = true ↔ s ∈ g.nodes.map (fun p => p.1) := by
  unfold FederatedGraph.containsNode
  rw [List.any_eq_true]
  simp only [List.mem_map, beq_iff_eq]

theorem emptyGraph_inv : GraphInv emptyGraph := by
  refine ⟨?_, ?_, ?_⟩
  · intro v hv
    have : ∀ a b, stepRel (edgePairs emptyGraph.edges) a b → False := by
      intro a b hab
      simp [emptyGraph, edgePairs, stepRel] at hab
    rcases Relation.TransGen.head'_iff.mp hv with ⟨w, hw, _⟩
    exact this v w hw
  · intro e he
    simp [emptyGraph] at he
  · simp [emptyGraph]

theorem add_node_inv {g : FederatedGraph} {n : Node} {g2 : FederatedGraph}
    (hinv : GraphInv g) (h : g.add_node n = .ok g2) : GraphInv g2 := by
  unfold FederatedGraph.add_node at h
  by_cases hc : g.containsNode n.id
  · simp [hc] at h
  · simp only [hc, Bool.false_eq_true, if_false, Except.ok.injEq] at h
    subst h
    refine ⟨hinv.acyclic, ?_, ?_⟩
    · intro e he
      obtain ⟨h1, h2⟩ := hinv.endpoints e he
      constructor
      · rw [containsNode_iff_keyMem] at h1 ⊢
        simpa using Or.inl (by simpa using h1)
      · rw [containsNode_iff_keyMem] at h2 ⊢
        simpa using Or.inl (by simpa using h2)
    · have hk := hinv.keys
      have hnotin : n.id ∉ g.nodes.map (fun p => p.1) := by
        intro hmem
        exact hc (containsNode_iff_keyMem.mpr hmem)
      rw [List.map_append]
      refine List.Nodup.append hk (List.nodup_singleton _) ?_
      intro a ha hb
      have : a = n.id := by simpa using hb
      subst this
      exact hnotin ha

theorem add_edge_inv {g : FederatedGraph} {e : Edge} {g2 : FederatedGraph}
    (hinv : GraphInv g) (h : g.add_edge e = .ok g2) : GraphInv g2 := by
  unfold FederatedGraph.add_edge at h
  by_cases hs : g.containsNode e.source
  · by_cases ht : g.containsNode e.target
    · by_cases hdag : is_directed_acyclic_graph (dedupPairs (edgePairs (g.edges ++ [e])))
      · simp only [hs, ht, hdag, not_true, Bool.false_eq_true, if_false, if_true,
          Except.ok.injEq] at h
        subst h
        refine ⟨?_, ?_, hinv.keys⟩
        · exact acyclic_dedup_iff.mp (isDag_iff_acyclic.mp hdag)
        · intro e2 he2
          rcases List.mem_append.mp he2 with h1 | h1
          · exact hinv.endpoints e2 h1
          · have : e2 = e := by simpa using h1
            subst this
            exact ⟨hs, ht⟩
      · simp [hs, ht, hdag] at h
    · simp [hs, ht] at h
  · simp [hs] at h

theorem remove_node_inv {g : FederatedGraph} {id : String} {g2 : FederatedGraph}
    (hinv : GraphInv g) (h : g.remove_node id = .ok g2) : GraphInv g2 := by
  unfold FederatedGraph.remove_node at h
  by_cases hc : g.containsNode id
  · simp only [hc, not_true, Bool.false_eq_true, if_false, Except.ok.injEq] at h
    subst h
    refine ⟨?_, ?_, ?_⟩
    · refine acyclic_mono ?_ hinv.acyclic
      intro p hp
      unfold edgePairs at hp ⊢
      obtain ⟨e2, he2, rfl⟩ := List.mem_map.mp hp
      exact List.mem_map.mpr ⟨e2, (List.mem_filter.mp he2).1, rfl⟩
    · intro e2 he2
      obtain ⟨hmem, hcond⟩ := List.mem_filter.mp he2
      obtain ⟨h1, h2⟩ := hinv.endpoints e2 hmem
      have hsid : e2.source ≠ id := by
        intro hq
        simp [hq] at hcond
      have htid : e2.target ≠ id := by
        intro hq
        simp [hq] at hcond
      constructor
      · rw [containsNode_iff_keyMem] at h1 ⊢
        obtain ⟨p, hp, hpe⟩ := List.mem_map.mp h1
        refine List.mem_map.mpr ⟨p, List.mem_filter.mpr ⟨hp, ?_⟩, hpe⟩
        simpa [hpe] using hsid
      · rw [containsNode_iff_keyMem] at h2 ⊢
        obtain ⟨p, hp, hpe⟩ := List.mem_map.mp h2
        refine List.mem_map.mpr ⟨p, List.mem_filter.mpr ⟨hp, ?_⟩, hpe⟩
        simpa [hpe] using htid
    · have : (g.nodes.filter (fun p => ¬ p.1 == id)).Sublist g.nodes :=
        List.filter_sublist g.nodes
      exact (this.map (fun p => p.1)).nodup hinv.keys
  · simp [hc] at h

theorem remove_edge_inv {g : FederatedGraph} {s t : String}
    (hinv : GraphInv g) : GraphInv (g.remove_edge s t) := by
  unfold FederatedGraph.remove_edge
  refine ⟨?_, ?_, hinv.keys⟩
  · refine acyclic_mono ?_ hinv.acyclic
    intro p hp
    unfold edgePairs at hp ⊢
    obtain ⟨e2, he2, rfl⟩ := List.mem_map.mp hp
    exact List.mem_map.mpr ⟨e2, (List.mem_filter.mp he2).1, rfl⟩
  · intro e2 he2
    exact hinv.endpoints e2 (List.mem_filter.mp he2).1

theorem reachable_inv {g : FederatedGraph} (h : ApiReachable g) : GraphInv g := by
  induction h with
  | empty => exact emptyGraph_inv
  | step hg hm ih =>
    rename_i g0 m g2
    cases m with
    | addNode n => exact add_node_inv ih hm
    | addEdge e => exact add_edge_inv ih hm
    | removeNode id => exact remove_node_inv ih hm
    | removeEdge s t =>
      have : g2 = g0.remove_edge s t := by
        simpa [applyMutation] using hm.symm
      subst this
      exact remove_edge_inv ih

/-- Under the invariant, `validate` reports nothing. -/
theorem validate_eq_nil_of_inv {g : FederatedGraph} (hinv : GraphInv g) :
    g.validate = [] := by
  unfold FederatedGraph.validate
  have hdag : is_directed_acyclic_graph g.nxPairs = true := by
    rw [isDag_iff_acyclic]
    unfold FederatedGraph.nxPairs
    exact acyclic_dedup_iff.mpr hinv.acyclic
  rw [hdag]
  simp only [not_true, Bool.false_eq_true, if_false, List.nil_append]
  rw [List.flatMap_eq_nil_iff]
  intro e he
  obtain ⟨h1, h2⟩ := hinv.endpoints e he
  simp [h1, h2]

/-! ## Correctness of the embedded networkx topological sort -/

/-- In-neighbors of `v` in arc order. -/
def preds (ps : List (String × String)) (v : String) : List String :=
  (ps.filter (fun p => p.2 == v)).map (fun p => p.1)

/-- Number of in-neighbors of `v` not yet emitted (`indegree_map` reading of
a partial run whose emitted vertices are `done`). -/
def remCount (ps : List (String × String)) (done : List String) (v : String) : Nat :=
  ((preds ps v).filter (fun u => decide (u ∉ done))).length

theorem mem_preds {ps : List (String × String)} {u v : String} :
    u ∈ preds ps v ↔ (u, v) ∈ ps := by
  unfold preds
  simp only [List.mem_map, List.mem_filter]
  constructor
  · rintro ⟨p, ⟨hp, he⟩, rfl⟩
    have h1 : p.2 = v := by simpa using he
    rw [← h1, Prod.mk.eta]
    exact hp
  · intro h
    exact ⟨(u, v), ⟨h, by simp⟩, rfl⟩

theorem preds_nodup {ps : List (String × String)} (hps : ps.Nodup) (v : String) :
    (preds ps v).Nodup := by
  unfold preds
  refine List.Nodup.map_on ?_ (hps.filter _)
  intro p hp q hq hpq
  have h1 : p.2 = v := by simpa using (List.mem_filter.mp hp).2
  have h2 : q.2 = v := by simpa using (List.mem_filter.mp hq).2
  exact Prod.ext hpq (h1.trans h2.symm)

theorem succs_nodup {ps : List (String × String)} (hps : ps.Nodup) (u : String) :
    (succs ps u).Nodup := by
  unfold succs
  refine List.Nodup.map_on ?_ (hps.filter _)
  intro p hp q hq hpq
  have h1 : p.1 = u := by simpa using (List.mem_filter.mp hp).2
  have h2 : q.1 = u := by simpa using (List.mem_filter.mp hq).2
  exact Prod.ext (h1.trans h2.symm) hpq

theorem inDeg_eq_remCount_nil {ps : List (String × String)} (v : String) :
    inDeg ps v = remCount ps [] v := by
  unfold inDeg remCount
  have h1 : (preds ps v).filter (fun u => decide (u ∉ ([] : List String))) = preds ps v :=
    List.filter_eq_self.mpr (by intro a _; simp)
  rw [h1]
  unfold preds
  rw [List.length_map]

theorem remCount_eq_zero_iff {ps : List (String × String)} {done : List String}
    {v : String} : remCount ps done v = 0 ↔ ∀ u ∈ preds ps v, u ∈ done := by
  unfold remCount
  rw [List.length_eq_zero, List.filter_eq_nil_iff]
  constructor
  · intro h u hu
    by_contra hnot
    exact h u hu (by simpa using hnot)
  · intro h u hu hdec
    have := h u hu
    simp [this] at hdec

theorem remCount_pos_iff {ps : List (String × String)} {done : List String}
    {v : String} : 0 < remCount ps done v ↔ ∃ u ∈ preds ps v, u ∉ done := by
  rw [Nat.pos_iff_ne_zero, Ne, remCount_eq_zero_iff]
  push_neg
  rfl

theorem remCount_subset_zero {ps : List (String × String)} {d1 d2 : List String}
    {v : String} (hsub : d1 ⊆ d2) (h : remCount ps d1 v = 0) :
    remCount ps d2 v = 0 := by
  rw [remCount_eq_zero_iff] at h ⊢
  exact fun u hu => hsub (h u hu)

theorem remCount_append_one {ps : List (String × String)} (hps : ps.Nodup)
    (done : List String) (n : String) (hn : n ∉ done) (v : String) :
    remCount ps (done ++ [n]) v =
      if (n, v) ∈ ps then remCount ps done v - 1 else remCount ps done v := by
  unfold remCount
  have hsplit : (preds ps v).filter (fun u => decide (u ∉ done ++ [n])) =
      ((preds ps v).filter (fun u => decide (u ∉ done))).filter (fun u => decide (u ≠ n)) := by
    rw [List.filter_filter]
    refine List.filter_congr ?_
    intro u _
    by_cases h1 : u ∈ done
    · simp [h1]
    · by_cases h2 : u = n
      · simp [h1, h2]
      · simp [h1, h2]
  rw [hsplit]
  have hnd : ((preds ps v).filter (fun u => decide (u ∉ done))).Nodup :=
    (preds_nodup hps v).filter _
  have herase : ((preds ps v).filter (fun u => decide (u ∉ done))).filter
      (fun u => decide (u ≠ n)) =
      ((preds ps v).filter (fun u => decide (u ∉ done))).erase n := by
    rw [List.Nodup.erase_eq_filter hnd]
    refine List.filter_congr ?_
    intro u _
    by_cases h2 : u = n
    · simp [h2]
    · simp [h2]
  rw [herase]
  by_cases hmem : (n, v) ∈ ps
  · have hnp : n ∈ (preds ps v).filter (fun u => decide (u ∉ done)) :=
      List.mem_filter.mpr ⟨mem_preds.mpr hmem, by simpa using hn⟩
    rw [if_pos hmem]
    exact List.length_erase_of_mem hnp
  · have hnp : n ∉ (preds ps v).filter (fun u => decide (u ∉ done)) := by
      intro hc
      exact hmem (mem_preds.mp (List.mem_filter.mp hc).1)
    rw [if_neg hmem]
    rw [List.erase_of_not_mem hnp]

theorem processChildren_spec :
    ∀ (cs : List String), cs.Nodup → ∀ (f : String → Nat) (zero : List String),
      processChildren cs f zero =
        ((fun v => if v ∈ cs then f v - 1 else f v),
          zero ++ cs.filter (fun c => decide (f c - 1 = 0))) := by
  intro cs
  induction cs with
  | nil =>
    intro _ f zero
    unfold processChildren
    refine Prod.ext ?_ ?_
    · funext v
      simp
    · simp
  | cons c cs ih =>
    intro hnd f zero
    obtain ⟨hc, hnd2⟩ := List.nodup_cons.mp hnd
    have hfun : ∀ zero2, processChildren cs (fun v => if v = c then f c - 1 else f v) zero2 =
        ((fun v => if v ∈ c :: cs then f v - 1 else f v),
          zero2 ++ cs.filter (fun x => decide (f x - 1 = 0))) := by
      intro zero2
      rw [ih hnd2]
      refine Prod.ext ?_ ?_
      · funext v
        by_cases hv : v = c
        · subst hv
          have : v ∉ cs := hc
          simp [this]
        · by_cases hv2 : v ∈ cs
          · simp [hv, hv2]
          · simp [hv, hv2]
      · have hfilt : cs.filter (fun x => decide ((if x = c then f c - 1 else f x) - 1 = 0)) =
            cs.filter (fun x => decide (f x - 1 = 0)) := by
          refine List.filter_congr ?_
          intro x hx
          have hxc : x ≠ c := fun h => hc (h ▸ hx)
          simp [hxc]
        rw [hfilt]
    unfold processChildren
    by_cases hd : f c - 1 = 0
    · rw [if_pos hd, hfun (zero ++ [c])]
      refine Prod.ext rfl ?_
      have : List.filter (fun x => decide (f x - 1 = 0)) (c :: cs) =
          c :: cs.filter (fun x => decide (f x - 1 = 0)) := by
        rw [List.filter_cons_of_pos (by simpa using hd)]
      rw [this]
      simp
    · rw [if_neg hd, hfun zero]
      refine Prod.ext rfl ?_
      have : List.filter (fun x => decide (f x - 1 = 0)) (c :: cs) =
          cs.filter (fun x => decide (f x - 1 = 0)) := by
        rw [List.filter_cons_of_neg (by simpa using hd)]
      rw [this]

/-- The vertices discovered (appended to `zero_indegree`) while processing a
generation `gen` after `done` has been emitted. -/
def genZeros (ps : List (String × String)) : List String → List String → List String
  | _, [] => []
  | done, n :: rest =>
    (succs ps n).filter (fun c => decide (remCount ps (done ++ [n]) c = 0))
      ++ genZeros ps (done ++ [n]) rest

theorem processGen_remCount {ps : List (String × String)} (hps : ps.Nodup) :
    ∀ (gen : List String), gen.Nodup → ∀ (done zero : List String),
      (∀ n ∈ gen, n ∉ done) →
      processGen ps gen (fun v => remCount ps done v) zero =
        ((fun v => remCount ps (done ++ gen) v), zero ++ genZeros ps done gen) := by
  intro gen
  induction gen with
  | nil =>
    intro _ done zero _
    unfold processGen genZeros
    refine Prod.ext ?_ ?_
    · funext v
      simp
    · simp
  | cons n rest ih =>
    intro hnd done zero hdisj
    obtain ⟨hn, hnd2⟩ := List.nodup_cons.mp hnd
    have hnd3 : n ∉ done := hdisj n (by simp)
    unfold processGen
    rw [processChildren_spec (succs ps n) (succs_nodup hps n)]
    have hfun : (fun v => if v ∈ succs ps n then remCount ps done v - 1 else remCount ps done v)
        = fun v => remCount ps (done ++ [n]) v := by
      funext v
      rw [remCount_append_one hps done n hnd3 v]
      by_cases hv : v ∈ succs ps n
      · rw [if_pos hv, if_pos (mem_succs.mp hv)]
      · rw [if_neg hv, if_neg (fun hmem => hv (mem_succs.mpr hmem))]
    have hzero : (succs ps n).filter (fun c => decide (remCount ps done c - 1 = 0)) =
        (succs ps n).filter (fun c => decide (remCount ps (done ++ [n]) c = 0)) := by
      refine List.filter_congr ?_
      intro c hcm
      rw [remCount_append_one hps done n hnd3 c, if_pos (mem_succs.mp hcm)]
    simp only []
    rw [hfun, hzero]
    have hdisj2 : ∀ m ∈ rest, m ∉ done ++ [n] := by
      intro m hm hmem
      rcases List.mem_append.mp hmem with h1 | h1
      · exact hdisj m (by simp [hm]) h1
      · have : m = n := by simpa using h1
        exact hn (this ▸ hm)
    rw [ih hnd2 (done ++ [n]) _ hdisj2]
    refine Prod.ext ?_ ?_
    · funext v
      rw [List.append_assoc]
      rfl
    · rw [genZeros]
      simp

theorem genZeros_sound {ps : List (String × String)} :
    ∀ (gen done : List String), ∀ v ∈ genZeros ps done gen,
      (∃ n ∈ gen, (n, v) ∈ ps) ∧ remCount ps (done ++ gen) v = 0 := by
  intro gen
  induction gen with
  | nil =>
    intro done v hv
    simp [genZeros] at hv
  | cons n rest ih =>
    intro done v hv
    rw [genZeros] at hv
    rcases List.mem_append.mp hv with h1 | h1
    · obtain ⟨hmem, hcond⟩ := List.mem_filter.mp h1
      refine ⟨⟨n, by simp, mem_succs.mp hmem⟩, ?_⟩
      refine remCount_subset_zero ?_ (by simpa using hcond)
      intro x hx
      rcases List.mem_append.mp hx with h2 | h2
      · exact List.mem_append_left _ h2
      · have : x = n := by simpa using h2
        subst this
        exact List.mem_append_right _ (by simp)
    · obtain ⟨⟨m, hm, hmv⟩, hcount⟩ := ih (done ++ [n]) v h1
      refine ⟨⟨m, by simp [hm], hmv⟩, ?_⟩
      rw [List.append_assoc] at hcount
      exact hcount

theorem genZeros_complete {ps : List (String × String)} :
    ∀ (gen done : List String), ∀ v, 0 < remCount ps done v →
      remCount ps (done ++ gen) v = 0 → v ∈ genZeros ps done gen := by
  intro gen
  induction gen with
  | nil =>
    intro done v hpos hzero
    rw [List.append_nil] at hzero
    omega
  | cons n rest ih =>
    intro done v hpos hzero
    rw [genZeros]
    by_cases h0 : remCount ps (done ++ [n]) v = 0
    · refine List.mem_append_left _ (List.mem_filter.mpr ⟨?_, by simpa using h0⟩)
      obtain ⟨u, hu, hun⟩ := remCount_pos_iff.mp hpos
      have humem : u ∈ done ++ [n] := remCount_eq_zero_iff.mp h0 u hu
      have : u = n := by
        rcases List.mem_append.mp humem with h2 | h2
        · exact absurd h2 hun
        · simpa using h2
      subst this
      exact mem_succs.mpr (mem_preds.mp hu)
    · refine List.mem_append_right _ (ih (done ++ [n]) v (Nat.pos_of_ne_zero h0) ?_)
      rw [List.append_assoc]
      exact hzero

theorem genZeros_nodup {ps : List (String × String)} (hps : ps.Nodup) :
    ∀ (gen done : List String), gen.Nodup → (∀ n ∈ gen, n ∉ done) →
      (genZeros ps done gen).Nodup := by
  intro gen
  induction gen with
  | nil =>
    intro done _ _
    simp [genZeros]
  | cons n rest ih =>
    intro done hnd hdisj
    obtain ⟨hn, hnd2⟩ := List.nodup_cons.mp hnd
    rw [genZeros]
    refine List.Nodup.append ((succs_nodup hps n).filter _) ?_ ?_
    · refine ih (done ++ [n]) hnd2 ?_
      intro m hm hmem
      rcases List.mem_append.mp hmem with h1 | h1
      · exact hdisj m (by simp [hm]) h1
      · have : m = n := by simpa using h1
        exact hn (this ▸ hm)
    · intro v hv1 hv2
      obtain ⟨_, hcond⟩ := List.mem_filter.mp hv1
      obtain ⟨⟨m, hm, hmv⟩, _⟩ := genZeros_sound rest (done ++ [n]) v hv2
      have hmmem : m ∈ done ++ [n] :=
        remCount_eq_zero_iff.mp (by simpa using hcond) m (mem_preds.mpr hmv)
      rcases List.mem_append.mp hmmem with h2 | h2
      · exact hdisj m (by simp [hm]) h2
      · have : m = n := by simpa using h2
        exact hn (this ▸ hm)

/-- A finite nonempty set of vertices in which every vertex has an
in-neighbor inside the set contains a cycle. -/
theorem cycle_of_trapped {ps : List (String × String)} {R : List String}
    (hne : R ≠ []) (hclosed : ∀ v ∈ R, ∃ u, u ∈ R ∧ (u, v) ∈ ps) :
    ∃ v, Relation.TransGen (stepRel ps) v v := by
  obtain ⟨v0, hv0⟩ := List.exists_mem_of_ne_nil R hne
  classical
  let f : {v // v ∈ R} → {v // v ∈ R} := fun v =>
    ⟨(hclosed v.1 v.2).choose, (hclosed v.1 v.2).choose_spec.1⟩
  have hf : ∀ v : {v // v ∈ R}, ((f v).1, v.1) ∈ ps := fun v =>
    (hclosed v.1 v.2).choose_spec.2
  let seq : Nat → {v // v ∈ R} := fun k => f^[k] ⟨v0, hv0⟩
  have hseq : ∀ k, seq (k + 1) = f (seq k) := by
    intro k
    exact Function.iterate_succ_apply' f k ⟨v0, hv0⟩
  have htrans : ∀ (k m : Nat), Relation.TransGen (stepRel ps) (seq (m + k + 1)).1 (seq m).1 := by
    intro k
    induction k with
    | zero =>
      intro m
      rw [hseq m]
      exact Relation.TransGen.single (hf (seq m))
    | succ k ih =>
      intro m
      have hstep : stepRel ps (seq (m + (k + 1) + 1)).1 (seq (m + k + 1)).1 := by
        have : m + (k + 1) + 1 = (m + k + 1) + 1 := by omega
        rw [this, hseq (m + k + 1)]
        exact hf (seq (m + k + 1))
      exact Relation.TransGen.head hstep (ih m)
  have hcard : R.toFinset.card < (Finset.range (R.toFinset.card + 1)).card := by
    rw [Finset.card_range]
    omega
  have hmaps : ∀ i ∈ Finset.range (R.toFinset.card + 1),
      (fun k => (seq k).1) i ∈ R.toFinset := by
    intro i _
    exact List.mem_toFinset.mpr (seq i).2
  obtain ⟨i, _, j, _, hij, heq⟩ :=
    Finset.exists_ne_map_eq_of_card_lt_of_maps_to hcard hmaps
  rcases Nat.lt_or_ge i j with hlt | hge
  · refine ⟨(seq i).1, ?_⟩
    have hj : j = i + (j - i - 1) + 1 := by omega
    have ht := htrans (j - i - 1) i
    rw [← hj] at ht
    rw [← heq] at ht
    exact ht
  · have hlt2 : j < i := by omega
    refine ⟨(seq j).1, ?_⟩
    have hi : i = j + (i - j - 1) + 1 := by omega
    have ht := htrans (i - j - 1) j
    rw [← hi] at ht
    rw [heq] at ht
    exact ht

/-- Topological-order property of an output list. -/
def OrderedOut (ps : List (String × String)) (l : List String) : Prop :=
  ∀ p ∈ ps, p.2 ∈ l → p.1 ∈ l ∧ l.indexOf p.1 < l.indexOf p.2

theorem orderedOut_append {ps : List (String × String)} {done gen : List String}
    (hord : OrderedOut ps done)
    (hready : ∀ v ∈ gen, ∀ u ∈ preds ps v, u ∈ done) :
    OrderedOut ps (done ++ gen) := by
  intro p hp hmem
  by_cases h2 : p.2 ∈ done
  · obtain ⟨h1, hidx⟩ := hord p hp h2
    refine ⟨List.mem_append_left _ h1, ?_⟩
    rw [List.indexOf_append_of_mem h1, List.indexOf_append_of_mem h2]
    exact hidx
  · have h2g : p.2 ∈ gen := by
      rcases List.mem_append.mp hmem with h | h
      · exact absurd h h2
      · exact h
    have h1 : p.1 ∈ done := by
      refine hready p.2 h2g p.1 (mem_preds.mpr ?_)
      rw [Prod.mk.eta]
      exact hp
    refine ⟨List.mem_append_left _ h1, ?_⟩
    rw [List.indexOf_append_of_mem h1, List.indexOf_append_of_not_mem h2]
    have hlen := List.indexOf_lt_length.mpr h1
    omega

theorem kahnLoop_nil (ps : List (String × String)) (fuel : Nat) (indeg : String → Nat) :
    kahnLoop ps fuel [] indeg = ([], indeg) := by
  cases fuel <;> rfl

theorem kahnLoop_zero_cons (ps : List (String × String)) (n : String) (gen : List String)
    (indeg : String → Nat) : kahnLoop ps 0 (n :: gen) indeg = ([], indeg) := rfl

theorem kahnLoop_succ_cons (ps : List (String × String)) (fuel : Nat) (n : String)
    (gen : List String) (indeg : String → Nat) :
    kahnLoop ps (fuel + 1) (n :: gen) indeg =
      ((n :: gen) ++ (kahnLoop ps fuel (processGen ps (n :: gen) indeg []).2
          (processGen ps (n :: gen) indeg []).1).1,
        (kahnLoop ps fuel (processGen ps (n :: gen) indeg []).2
          (processGen ps (n :: gen) indeg []).1).2) := rfl

/-- Master correctness invariant of the `while zero_indegree` loop. -/
theorem kahnLoop_master {ns : List String} {ps : List (String × String)}
    (hpsnd : ps.Nodup) (hsrc : ∀ p ∈ ps, p.1 ∈ ns) (htgt : ∀ p ∈ ps, p.2 ∈ ns)
    (hacy : Acyclic ps) :
    ∀ (fuel : Nat) (done gen : List String),
      done ++ gen ⊆ ns → (done ++ gen).Nodup →
      (∀ v ∈ gen, ∀ u ∈ preds ps v, u ∈ done) →
      (∀ v ∈ done, ∀ u ∈ preds ps v, u ∈ done) →
      (∀ v ∈ ns, v ∉ done → v ∉ gen → ∃ u ∈ preds ps v, u ∉ done) →
      OrderedOut ps done →
      ns.length + 1 ≤ fuel + done.length →
      (∀ v ∈ ns, v ∈ done ++ (kahnLoop ps fuel gen (fun v => remCount ps done v)).1) ∧
      (done ++ (kahnLoop ps fuel gen (fun v => remCount ps done v)).1).Nodup ∧
      (done ++ (kahnLoop ps fuel gen (fun v => remCount ps done v)).1) ⊆ ns ∧
      OrderedOut ps (done ++ (kahnLoop ps fuel gen (fun v => remCount ps done v)).1) ∧
      (∀ v, (kahnLoop ps fuel gen (fun v => remCount ps done v)).2 v =
        remCount ps (done ++ (kahnLoop ps fuel gen (fun v => remCount ps done v)).1) v) := by
  intro fuel
  induction fuel with
  | zero =>
    intro done gen hsub hnd hready hclosed hstuck hord hfuel
    cases gen with
    | cons n rest =>
      exfalso
      have h1 : (done ++ n :: rest).length ≤ ns.length :=
        nodup_subset_length hnd hsub
      simp only [List.length_append, List.length_cons] at h1
      omega
    | nil =>
      rw [kahnLoop_nil]
      have hdone : ∀ v ∈ ns, v ∈ done := by
        by_contra hcon
        push_neg at hcon
        obtain ⟨w, hwns, hwdone⟩ := hcon
        have hRne : ns.filter (fun v => decide (v ∉ done)) ≠ [] := by
          intro hnil
          have : w ∈ ns.filter (fun v => decide (v ∉ done)) :=
            List.mem_filter.mpr ⟨hwns, by simpa using hwdone⟩
          rw [hnil] at this
          simp at this
        have hRclosed : ∀ v ∈ ns.filter (fun v => decide (v ∉ done)),
            ∃ u, u ∈ ns.filter (fun v => decide (v ∉ done)) ∧ (u, v) ∈ ps := by
          intro v hv
          obtain ⟨hvns, hvd⟩ := List.mem_filter.mp hv
          obtain ⟨u, hup, hud⟩ := hstuck v hvns (by simpa using hvd) (by simp)
          have hups : (u, v) ∈ ps := mem_preds.mp hup
          refine ⟨u, List.mem_filter.mpr ⟨hsrc (u, v) hups, by simpa using hud⟩, hups⟩
        obtain ⟨v, hcyc⟩ := cycle_of_trapped hRne hRclosed
        exact hacy v hcyc
      refine ⟨?_, ?_, ?_, ?_, ?_⟩
      · intro v hv
        exact List.mem_append_left _ (hdone v hv)
      · simpa using hnd
      · simpa using hsub
      · intro p hp hmem
        rw [List.append_nil] at hmem ⊢
        exact hord p hp hmem
      · intro v
        rw [List.append_nil]
  | succ fuel ih =>
    intro done gen hsub hnd hready hclosed hstuck hord hfuel
    cases gen with
    | nil =>
      rw [kahnLoop_nil]
      have hdone : ∀ v ∈ ns, v ∈ done := by
        by_contra hcon
        push_neg at hcon
        obtain ⟨w, hwns, hwdone⟩ := hcon
        have hRne : ns.filter (fun v => decide (v ∉ done)) ≠ [] := by
          intro hnil
          have : w ∈ ns.filter (fun v => decide (v ∉ done)) :=
            List.mem_filter.mpr ⟨hwns, by simpa using hwdone⟩
          rw [hnil] at this
          simp at this
        have hRclosed : ∀ v ∈ ns.filter (fun v => decide (v ∉ done)),
            ∃ u, u ∈ ns.filter (fun v => decide (v ∉ done)) ∧ (u, v) ∈ ps := by
          intro v hv
          obtain ⟨hvns, hvd⟩ := List.mem_filter.mp hv
          obtain ⟨u, hup, hud⟩ := hstuck v hvns (by simpa using hvd) (by simp)
          have hups : (u, v) ∈ ps := mem_preds.mp hup
          refine ⟨u, List.mem_filter.mpr ⟨hsrc (u, v) hups, by simpa using hud⟩, hups⟩
        obtain ⟨v, hcyc⟩ := cycle_of_trapped hRne hRclosed
        exact hacy v hcyc
      refine ⟨?_, ?_, ?_, ?_, ?_⟩
      · intro v hv
        exact List.mem_append_left _ (hdone v hv)
      · simpa using hnd
      · simpa using hsub
      · intro p hp hmem
        rw [List.append_nil] at hmem ⊢
        exact hord p hp hmem
      · intro v
        rw [List.append_nil]
    | cons n rest =>
      have hndsplit := List.nodup_append.mp hnd
      have hgennd : (n :: rest).Nodup := hndsplit.2.1
      have hdisj : ∀ m ∈ n :: rest, m ∉ done := by
        intro m hm hmd
        exact hndsplit.2.2 hmd hm
      rw [kahnLoop_succ_cons]
      rw [processGen_remCount hpsnd (n :: rest) hgennd done [] hdisj]
      simp only [List.nil_append]
      set gz := genZeros ps done (n :: rest) with hgz
      -- establish the invariant for the recursive call
      have hsub2 : (done ++ n :: rest) ++ gz ⊆ ns := by
        intro v hv
        rcases List.mem_append.mp hv with h1 | h1
        · exact hsub h1
        · obtain ⟨⟨m, _, hmv⟩, _⟩ := genZeros_sound (n :: rest) done v h1
          exact htgt (m, v) hmv
      have hgzsound : ∀ v ∈ genZeros ps done (n :: rest),
          (∃ m ∈ n :: rest, (m, v) ∈ ps) ∧ remCount ps (done ++ n :: rest) v = 0 :=
        genZeros_sound (n :: rest) done
      have hgznotin : ∀ v ∈ gz, v ∉ done ++ n :: rest := by
        intro v hv hvmem
        obtain ⟨⟨m, hm, hmv⟩, hz⟩ := hgzsound v hv
        have hmdone : m ∈ done := by
          rcases List.mem_append.mp hvmem with h1 | h1
          · exact hclosed v h1 m (mem_preds.mpr hmv)
          · exact hready v h1 m (mem_preds.mpr hmv)
        exact hdisj m hm hmdone
      have hnd2 : ((done ++ n :: rest) ++ gz).Nodup := by
        refine List.Nodup.append hnd (genZeros_nodup hpsnd (n :: rest) done hgennd hdisj) ?_
        intro v hv1 hv2
        exact hgznotin v hv2 hv1
      have hready2 : ∀ v ∈ gz, ∀ u ∈ preds ps v, u ∈ done ++ n :: rest := by
        intro v hv u hu
        obtain ⟨_, hz⟩ := hgzsound v hv
        exact remCount_eq_zero_iff.mp hz u hu
      have hclosed2 : ∀ v ∈ done ++ n :: rest, ∀ u ∈ preds ps v, u ∈ done ++ n :: rest := by
        intro v hv u hu
        rcases List.mem_append.mp hv with h1 | h1
        · exact List.mem_append_left _ (hclosed v h1 u hu)
        · exact List.mem_append_left _ (hready v h1 u hu)
      have hstuck2 : ∀ v ∈ ns, v ∉ done ++ n :: rest → v ∉ gz →
          ∃ u ∈ preds ps v, u ∉ done ++ n :: rest := by
        intro v hvns hvd hvz
        have hvdone : v ∉ done := fun hc => hvd (List.mem_append_left _ hc)
        have hvgen : v ∉ n :: rest := fun hc => hvd (List.mem_append_right _ hc)
        obtain ⟨u, hup, hud⟩ := hstuck v hvns hvdone hvgen
        by_contra hcon
        push_neg at hcon
        have hz : remCount ps (done ++ n :: rest) v = 0 :=
          remCount_eq_zero_iff.mpr hcon
        have hpos : 0 < remCount ps done v := remCount_pos_iff.mpr ⟨u, hup, hud⟩
        exact hvz (genZeros_complete (n :: rest) done v hpos hz)
      have hord2 : OrderedOut ps (done ++ n :: rest) := orderedOut_append hord hready
      have hfuel2 : ns.length + 1 ≤ fuel + (done ++ n :: rest).length := by
        simp only [List.length_append, List.length_cons]
        omega
      have hmain := ih (done ++ n :: rest) gz hsub2 hnd2 hready2 hclosed2 hstuck2 hord2 hfuel2
      obtain ⟨m1, m2, m3, m4, m5⟩ := hmain
      refine ⟨?_, ?_, ?_, ?_, ?_⟩
      · intro v hv
        have := m1 v hv
        rwa [List.append_assoc] at this
      · rwa [List.append_assoc] at m2
      · rwa [List.append_assoc] at m3
      · rwa [List.append_assoc] at m4
      · intro v
        have := m5 v
        rwa [List.append_assoc] at this

/-- Correctness of the embedded `nx.topological_sort` on an acyclic graph. -/
theorem nx_topological_sort_spec {ns : List String} {ps : List (String × String)}
    (hnsnd : ns.Nodup) (hpsnd : ps.Nodup)
    (hsrc : ∀ p ∈ ps, p.1 ∈ ns) (htgt : ∀ p ∈ ps, p.2 ∈ ns) (hacy : Acyclic ps) :
    ∃ out, nx_topological_sort ns ps = some out ∧
      out.Nodup ∧ (∀ v, v ∈ out ↔ v ∈ ns) ∧ OrderedOut ps out := by
  have hfe : (fun v => inDeg ps v) = fun v => remCount ps [] v := by
    funext v
    exact inDeg_eq_remCount_nil v
  have hsub : ([] : List String) ++ ns.filter (fun v => inDeg ps v == 0) ⊆ ns := by
    intro v hv
    rw [List.nil_append] at hv
    exact (List.mem_filter.mp hv).1
  have hnd : (([] : List String) ++ ns.filter (fun v => inDeg ps v == 0)).Nodup := by
    rw [List.nil_append]
    exact hnsnd.filter _
  have hready : ∀ v ∈ ns.filter (fun v => inDeg ps v == 0),
      ∀ u ∈ preds ps v, u ∈ ([] : List String) := by
    intro v hv u hu
    obtain ⟨_, hcond⟩ := List.mem_filter.mp hv
    have h0 : inDeg ps v = 0 := by simpa using hcond
    rw [inDeg_eq_remCount_nil] at h0
    exact remCount_eq_zero_iff.mp h0 u hu
  have hclosed : ∀ v ∈ ([] : List String), ∀ u ∈ preds ps v, u ∈ ([] : List String) := by
    intro v hv
    simp at hv
  have hstuck : ∀ v ∈ ns, v ∉ ([] : List String) →
      v ∉ ns.filter (fun v => inDeg ps v == 0) → ∃ u ∈ preds ps v, u ∉ ([] : List String) := by
    intro v hvns _ hvz
    have hne : inDeg ps v ≠ 0 := by
      intro h0
      exact hvz (List.mem_filter.mpr ⟨hvns, by simpa using h0⟩)
    rw [inDeg_eq_remCount_nil] at hne
    obtain ⟨u, hu, hud⟩ := remCount_pos_iff.mp (Nat.pos_of_ne_zero hne)
    exact ⟨u, hu, hud⟩
  have hord : OrderedOut ps ([] : List String) := by
    intro p _ hmem
    simp at hmem
  have hfuel : ns.length + 1 ≤ (ns.length + 1) + ([] : List String).length := by
    simp
  have hmain := kahnLoop_master hpsnd hsrc htgt hacy (ns.length + 1) []
    (ns.filter (fun v => inDeg ps v == 0)) hsub hnd hready hclosed hstuck hord hfuel
  obtain ⟨m1, m2, m3, m4, m5⟩ := hmain
  rw [List.nil_append] at m1 m2 m3 m4
  refine ⟨(kahnLoop ps (ns.length + 1) (ns.filter (fun v => inDeg ps v == 0))
    (fun v => remCount ps [] v)).1, ?_, m2, ?_, m4⟩
  · unfold nx_topological_sort
    rw [hfe]
    have hany : (ns.any (fun v => ¬ (kahnLoop ps (ns.length + 1)
        (ns.filter (fun v => inDeg ps v == 0)) (fun v => remCount ps [] v)).2 v == 0)) = false := by
      rw [List.any_eq_false]
      intro v hv
      have hz : (kahnLoop ps (ns.length + 1) (ns.filter (fun v => inDeg ps v == 0))
          (fun v => remCount ps [] v)).2 v = 0 := by
        rw [m5 v]
        rw [remCount_eq_zero_iff]
        intro u hu
        have : u ∈ ns := hsrc (u, v) (mem_preds.mp hu)
        rw [List.nil_append] at m5
        exact m1 u this
      simp [hz]
    simp only [hany, Bool.false_eq_true, if_false]
  · intro v
    constructor
    · intro hv
      exact m3 hv
    · intro hv
      exact m1 v hv

/-! ## The nx node list under the invariant -/

theorem foldl_addIfMissing_of_mem :
    ∀ (es : List Edge) (acc : List String),
      (∀ e ∈ es, e.source ∈ acc ∧ e.target ∈ acc) →
      es.foldl (fun acc e => addIfMissing (addIfMissing acc e.source) e.target) acc = acc := by
  intro es
  induction es with
  | nil =>
    intro acc _
    rfl
  | cons e es ih =>
    intro acc hmem
    obtain ⟨h1, h2⟩ := hmem e (by simp)
    rw [List.foldl_cons]
    have ha1 : addIfMissing acc e.source = acc := by
      unfold addIfMissing
      rw [if_pos h1]
    have ha2 : addIfMissing (addIfMissing acc e.source) e.target = acc := by
      rw [ha1]
      unfold addIfMissing
      rw [if_pos h2]
    rw [ha2]
    refine ih acc ?_
    intro e2 he2
    exact hmem e2 (by simp [he2])

/-- Under the invariant every endpoint is already a dict key, so the nx node
order is exactly the dict key order. -/
theorem nxNodes_eq_keys {g : FederatedGraph} (hinv : GraphInv g) :
    g.nxNodes = g.nodes.map (fun p => p.1) := by
  unfold FederatedGraph.nxNodes
  refine foldl_addIfMissing_of_mem g.edges _ ?_
  intro e he
  obtain ⟨h1, h2⟩ := hinv.endpoints e he
  exact ⟨containsNode_iff_keyMem.mp h1, containsNode_iff_keyMem.mp h2⟩

theorem nxPairs_mem {g : FederatedGraph} {p : String × String} :
    p ∈ g.nxPairs ↔ p ∈ edgePairs g.edges := by
  unfold FederatedGraph.nxPairs
  exact mem_dedupPairs _ p

/-- Correctness of FederatedGraph.topological_sort on an invariant-satisfying
graph: it succeeds, returns each node id exactly once, and places every
edge's source strictly before its target. -/
theorem topological_sort_spec {g : FederatedGraph} (hinv : GraphInv g) :
    ∃ out, g.topological_sort = .ok out ∧ out.Nodup ∧
      (∀ v, v ∈ out ↔ g.containsNode v = true) ∧
      (∀ e ∈ g.edges, out.indexOf e.source < out.indexOf e.target) := by
  have hacy : Acyclic g.nxPairs := by
    unfold FederatedGraph.nxPairs
    exact acyclic_dedup_iff.mpr hinv.acyclic
  have hdag : is_directed_acyclic_graph g.nxPairs = true := isDag_iff_acyclic.mpr hacy
  have hnsnd : g.nxNodes.Nodup := by
    rw [nxNodes_eq_keys hinv]
    exact hinv.keys
  have hpsnd : g.nxPairs.Nodup := nodup_dedupPairs _
  have hsrc : ∀ p ∈ g.nxPairs, p.1 ∈ g.nxNodes := by
    intro p hp
    rw [nxNodes_eq_keys hinv]
    obtain ⟨e, he, rfl⟩ := List.mem_map.mp (nxPairs_mem.mp hp)
    exact containsNode_iff_keyMem.mp (hinv.endpoints e he).1
  have htgt : ∀ p ∈ g.nxPairs, p.2 ∈ g.nxNodes := by
    intro p hp
    rw [nxNodes_eq_keys hinv]
    obtain ⟨e, he, rfl⟩ := List.mem_map.mp (nxPairs_mem.mp hp)
    exact containsNode_iff_keyMem.mp (hinv.endpoints e he).2
  obtain ⟨out, hsome, hnd, hmem, hord⟩ :=
    nx_topological_sort_spec hnsnd hpsnd hsrc htgt hacy
  refine ⟨out, ?_, hnd, ?_, ?_⟩
  · unfold FederatedGraph.topological_sort
    rw [hdag]
    simp only [not_true, Bool.false_eq_true, if_false, hsome]
  · intro v
    rw [hmem v, nxNodes_eq_keys hinv, containsNode_iff_keyMem]
  · intro e he
    have hpair : (e.source, e.target) ∈ g.nxPairs :=
      nxPairs_mem.mpr (List.mem_map.mpr ⟨e, he, rfl⟩)
    have htin : e.target ∈ out := by
      rw [hmem]
      exact htgt (e.source, e.target) hpair
    exact (hord (e.source, e.target) hpair htin).2

/-! ## Concrete fixtures used by witnesses and counterexamples -/

/-- Test node with id a. -/
def nodeA : Node := ⟨"a", .SERVICE, "a", []⟩

/-- Test node with id b. -/
def nodeB : Node := ⟨"b", .SERVICE, "b", []⟩

/-- Test node with id c. -/
def nodeC : Node := ⟨"c", .SERVICE, "c", []⟩

/-- Edge a -> b. -/
def edgeAB : Edge := ⟨"a", "b", .DEPENDS_ON, [], none⟩

/-- Edge b -> c. -/
def edgeBC : Edge := ⟨"b", "c", .DEPENDS_ON, [], none⟩

/-- Edge b -> a (closes a cycle after a -> b). -/
def edgeBA : Edge := ⟨"b", "a", .DEPENDS_ON, [], none⟩

/-- Graph with nodes a, b and the edge a -> b. -/
def graphAB : FederatedGraph := ⟨[("a", nodeA), ("b", nodeB)], [edgeAB], []⟩

/-- Graph with nodes inserted in the order b then a and no edges. -/
def graphBA : FederatedGraph := ⟨[("b", nodeB), ("a", nodeA)], [], []⟩

/-- The chain a -> b -> c. -/
def chainABC : FederatedGraph :=
  ⟨[("a", nodeA), ("b", nodeB), ("c", nodeC)], [edgeAB, edgeBC], []⟩

theorem graphAB_inv : GraphInv graphAB := by
  refine ⟨isDag_iff_acyclic.mp (by decide), ?_, ?_⟩
  · decide
  · decide

/-! ## Claim C1 -/

/-- C1: every graph reachable from the empty graph by successful public
mutations has an acyclic edge set whose endpoints are all present in
`nodes`; consequently `topological_sort` succeeds (never raises
CycleDetectedError) and `validate()` returns the empty list. -/
theorem C1_invariants {g : FederatedGraph} (h : ApiReachable g) :
    Acyclic (edgePairs g.edges) ∧
    (∀ e ∈ g.edges, g.containsNode e.source = true ∧ g.containsNode e.target = true) ∧
    (∃ out, g.topological_sort = .ok out) ∧
    g.validate = [] := by
  have hinv := reachable_inv h
  obtain ⟨out, hout, _, _, _⟩ := topological_sort_spec hinv
  exact ⟨hinv.acyclic, hinv.endpoints, ⟨out, hout⟩, validate_eq_nil_of_inv hinv⟩

/-- Graph holding only node a (used as a concrete reachable state). -/
def graphOnlyA : FederatedGraph := ⟨[("a", nodeA)], [], []⟩

theorem C1_invariants_witness :
    Acyclic (edgePairs graphOnlyA.edges) ∧
    (∀ e ∈ graphOnlyA.edges,
      graphOnlyA.containsNode e.source = true ∧ graphOnlyA.containsNode e.target = true) ∧
    (∃ out, graphOnlyA.topological_sort = .ok out) ∧
    graphOnlyA.validate = [] :=
  C1_invariants (ApiReachable.step ApiReachable.empty
    (show applyMutation emptyGraph (.addNode nodeA) = .ok graphOnlyA from rfl))

/-! ## Claim C2 -/

/-- C2: with both endpoints present, `add_edge` fails with
CycleDetectedError exactly when the target already reaches the source
through the existing edges (leaving the state unchanged), and otherwise
succeeds by appending the edge; with a missing endpoint it fails with
NodeNotFoundError. -/
theorem C2_add_edge_spec {g : FederatedGraph} (hacy : Acyclic (edgePairs g.edges)) (e : Edge) :
    (g.containsNode e.source = true → g.containsNode e.target = true →
      ((Reaches (edgePairs g.edges) e.target e.source →
          ∃ msg, g.add_edge e = .error (.cycleDetected msg)) ∧
        (¬ Reaches (edgePairs g.edges) e.target e.source →
          g.add_edge e = .ok { g with edges := g.edges ++ [e] }))) ∧
    ((g.containsNode e.source = false ∨ g.containsNode e.target = false) →
      ∃ msg, g.add_edge e = .error (.nodeNotFound msg)) := by
  constructor
  · intro hs ht
    have hpairs : edgePairs (g.edges ++ [e]) = edgePairs g.edges ++ [(e.source, e.target)] := by
      unfold edgePairs
      rw [List.map_append]
      rfl
    have hiff : is_directed_acyclic_graph (dedupPairs (edgePairs (g.edges ++ [e]))) = true
        ↔ ¬ Reaches (edgePairs g.edges) e.target e.source := by
      rw [isDag_iff_acyclic, acyclic_dedup_iff, hpairs, acyclic_append_iff hacy]
    constructor
    · intro hreach
      have hfalse : is_directed_acyclic_graph (dedupPairs (edgePairs (g.edges ++ [e]))) = false := by
        rw [Bool.eq_false_iff]
        intro hc
        exact hiff.mp hc hreach
      refine ⟨"Adding edge " ++ e.source ++ " -> " ++ e.target ++ " would create a cycle", ?_⟩
      unfold FederatedGraph.add_edge
      simp [hs, ht, hfalse]
    · intro hnreach
      have htrue := hiff.mpr hnreach
      unfold FederatedGraph.add_edge
      simp [hs, ht, htrue]
  · intro hmiss
    unfold FederatedGraph.add_edge
    rcases hmiss with h | h
    · refine ⟨"Source node '" ++ e.source ++ "' not found", ?_⟩
      simp [h]
    · by_cases hs : g.containsNode e.source = true
      · refine ⟨"Target node '" ++ e.target ++ "' not found", ?_⟩
        simp [hs, h]
      · refine ⟨"Source node '" ++ e.source ++ "' not found", ?_⟩
        have hs2 : g.containsNode e.source = false := Bool.eq_false_iff.mpr hs
        simp [hs2]

theorem C2_add_edge_spec_witness :
    (∃ msg, graphAB.add_edge edgeBA = .error (.cycleDetected msg)) ∧
    graphAB.add_edge ⟨"a", "b", .CONSUMES, [], none⟩ =
      .ok { graphAB with edges := graphAB.edges ++ [⟨"a", "b", .CONSUMES, [], none⟩] } ∧
    (∃ msg, graphAB.add_edge edgeBC = .error (.nodeNotFound msg)) := by
  have hacy : Acyclic (edgePairs graphAB.edges) := isDag_iff_acyclic.mp (by decide)
  refine ⟨?_, ?_, ?_⟩
  · exact ((C2_add_edge_spec hacy edgeBA).1 (by decide) (by decide)).1
      (reaches_iff_reachB.mpr (by decide))
  · refine ((C2_add_edge_spec hacy ⟨"a", "b", .CONSUMES, [], none⟩).1
      (by decide) (by decide)).2 ?_
    intro hreach
    have := reaches_iff_reachB.mp hreach
    simp [edgePairs, graphAB, edgeAB, reachB, succs] at this
  · exact (C2_add_edge_spec hacy edgeBC).2 (Or.inr (by decide))

/-! ## Claim C9 -/

/-- C9: adding a self-loop (source = target, node present) always fails with
CycleDetectedError, on every graph state. -/
theorem C9_self_loop {g : FederatedGraph} {e : Edge} (hself : e.source = e.target)
    (hmem : g.containsNode e.source = true) :
    ∃ msg, g.add_edge e = .error (.cycleDetected msg) := by
  have hcyc : ¬ Acyclic (dedupPairs (edgePairs (g.edges ++ [e]))) := by
    intro hacy
    refine hacy e.source (Relation.TransGen.single ?_)
    show (e.source, e.source) ∈ dedupPairs (edgePairs (g.edges ++ [e]))
    rw [mem_dedupPairs]
    unfold edgePairs
    rw [List.map_append]
    refine List.mem_append_right _ ?_
    simp only [List.map_cons, List.map_nil, List.mem_singleton]
    rw [← hself]
  have hfalse : is_directed_acyclic_graph (dedupPairs (edgePairs (g.edges ++ [e]))) = false := by
    rw [Bool.eq_false_iff]
    intro hc
    exact hcyc (isDag_iff_acyclic.mp hc)
  have ht : g.containsNode e.target = true := by
    rw [← hself]
    exact hmem
  refine ⟨"Adding edge " ++ e.source ++ " -> " ++ e.target ++ " would create a cycle", ?_⟩
  unfold FederatedGraph.add_edge
  simp [hmem, ht, hfalse]

theorem C9_self_loop_witness :
    ∃ msg, graphAB.add_edge ⟨"a", "a", .OWNS, [], none⟩ = .error (.cycleDetected msg) :=
  C9_self_loop rfl (by decide)

/-! ## Claim C7 -/

/-- C7: remove_node fails with NodeNotFoundError on an absent id (leaving
the state unchanged), otherwise deletes the node and every incident edge,
preserving the invariants; removing b from the chain a -> b -> c leaves 2
nodes and 0 edges. -/
theorem C7_remove_node (g : FederatedGraph) (id : String) :
    (g.containsNode id = false → ∃ msg, g.remove_node id = .error (.nodeNotFound msg)) ∧
    (g.containsNode id = true →
      g.remove_node id = .ok { g with
        nodes := g.nodes.filter (fun p => ¬ p.1 == id),
        edges := g.edges.filter (fun e => ¬ e.source == id && ¬ e.target == id) }) ∧
    (∀ g2, GraphInv g → g.remove_node id = .ok g2 → GraphInv g2) ∧
    (∃ g2, chainABC.remove_node "b" = .ok g2 ∧ g2.node_count = 2 ∧ g2.edge_count = 0) := by
  refine ⟨?_, ?_, ?_, ?_⟩
  · intro hc
    refine ⟨"Node '" ++ id ++ "' not found", ?_⟩
    unfold FederatedGraph.remove_node
    simp [hc]
  · intro hc
    unfold FederatedGraph.remove_node
    simp [hc]
  · intro g2 hinv hok
    exact remove_node_inv hinv hok
  · refine ⟨⟨[("a", nodeA), ("c", nodeC)], [], []⟩, ?_, ?_, ?_⟩
    · decide
    · decide
    · decide

theorem C7_remove_node_witness :
    (∃ msg, graphAB.remove_node "zz" = .error (.nodeNotFound msg)) ∧
    graphAB.remove_node "a" = .ok { graphAB with
      nodes := graphAB.nodes.filter (fun p => ¬ p.1 == "a"),
      edges := graphAB.edges.filter (fun e => ¬ e.source == "a" && ¬ e.target == "a") } := by
  refine ⟨(C7_remove_node graphAB "zz").1 (by decide), ?_⟩
  exact (C7_remove_node graphAB "a").2.1 (by decide)

/-! ## Claim C10 -/

/-- Graph with two parallel a -> b edges of different kinds. -/
def graphMulti : FederatedGraph :=
  ⟨[("a", nodeA), ("b", nodeB)],
    [⟨"a", "b", .DEPENDS_ON, [], none⟩, ⟨"a", "b", .CONSUMES, [], none⟩], []⟩

theorem find?_eq_head?_filter {α : Type} (p : α → Bool) :
    ∀ (l : List α), l.find? p = (l.filter p).head? := by
  intro l
  induction l with
  | nil => rfl
  | cons a l ih =>
    by_cases h : p a
    · rw [List.find?_cons_of_pos _ h, List.filter_cons_of_pos h]
      rfl
    · rw [List.find?_cons_of_neg _ (by simpa using h), List.filter_cons_of_neg (by simpa using h)]
      exact ih

/-- C10: get_edge returns the earliest-inserted matching edge; remove_edge
deletes all matching edges regardless of kind. On a graph with two parallel
a -> b edges of different kinds, get_edge returns the first-inserted one and
remove_edge removes both. -/
theorem C10_get_edge_remove_edge (g : FederatedGraph) (s t : String) :
    g.get_edge s t = (g.edges.filter (fun e => e.source == s && e.target == t)).head? ∧
    (∀ e, e ∈ (g.remove_edge s t).edges ↔ e ∈ g.edges ∧ ¬ (e.source = s ∧ e.target = t)) ∧
    graphMulti.get_edge "a" "b" = some ⟨"a", "b", .DEPENDS_ON, [], none⟩ ∧
    (graphMulti.remove_edge "a" "b").edges = [] := by
  refine ⟨?_, ?_, ?_, ?_⟩
  · exact find?_eq_head?_filter _ g.edges
  · intro e
    unfold FederatedGraph.remove_edge
    simp only [List.mem_filter]
    constructor
    · rintro ⟨h1, h2⟩
      refine ⟨h1, ?_⟩
      rintro ⟨hs, ht⟩
      simp [hs, ht] at h2
    · rintro ⟨h1, h2⟩
      refine ⟨h1, ?_⟩
      by_cases hs : e.source = s
      · by_cases ht : e.target = t
        · exact absurd ⟨hs, ht⟩ h2
        · simp [hs, ht]
      · simp [hs]
  · decide
  · decide

theorem C10_witness :
    graphMulti.get_edge "a" "b" =
      (graphMulti.edges.filter (fun e => e.source == "a" && e.target == "b")).head? ∧
    (⟨"a", "b", .CONSUMES, [], none⟩ : Edge) ∉ (graphMulti.remove_edge "a" "b").edges := by
  refine ⟨(C10_get_edge_remove_edge graphMulti "a" "b").1, ?_⟩
  intro hmem
  have := ((C10_get_edge_remove_edge graphMulti "a" "b").2.1 _).mp hmem
  exact this.2 ⟨rfl, rfl⟩

/-! ## Claim C5 -/

/-- C5 counterexample: the graph built by adding node b then node a (no
edges) is sorted as b, a — the networkx order follows node insertion order,
not the claimed node-id-ascending tie-break, which would give a, b. -/
theorem C5_counterexample :
    emptyGraph.add_node nodeB = .ok ⟨[("b", nodeB)], [], []⟩ ∧
    (FederatedGraph.mk [("b", nodeB)] [] []).add_node nodeA = .ok graphBA ∧
    graphBA.topological_sort = .ok ["b", "a"] ∧
    (["b", "a"] : List String) ≠ ["a", "b"] := by
  refine ⟨by decide, by decide, by decide, by decide⟩

/-- C5 (amended): on every invariant-satisfying graph, topological_sort
succeeds and returns each node id exactly once with every edge's source
strictly before its target; the result is a deterministic function of the
stored graph state, with ties following node insertion order (networkx
generations), not node id ascending. -/
theorem C5_amended_topological_sort {g : FederatedGraph} (hinv : GraphInv g) :
    ∃ out, g.topological_sort = .ok out ∧ out.Nodup ∧
      (∀ v, v ∈ out ↔ g.containsNode v = true) ∧
      (∀ e ∈ g.edges, out.indexOf e.source < out.indexOf e.target) :=
  topological_sort_spec hinv

theorem C5_amended_witness :
    ∃ out, chainABC.topological_sort = .ok out ∧ out.Nodup ∧
      (∀ v, v ∈ out ↔ chainABC.containsNode v = true) ∧
      (∀ e ∈ chainABC.edges, out.indexOf e.source < out.indexOf e.target) :=
  C5_amended_topological_sort ⟨isDag_iff_acyclic.mp (by decide), by decide, by decide⟩

/-! ## Claim C8 -/

/-- C8 counterexample: on the input with a run of two spaces the code yields
a double hyphen and the spec's run-collapsing normalization yields a single
hyphen, so the claimed behavior is false for `generate_purl`. -/
theorem C8_counterexample :
    generate_purl "My  Service" = "pkg:frctl/my--service@local" ∧
    generate_id_spec "My  Service" = "pkg:frctl/my-service@local" ∧
    generate_purl "My  Service" ≠ generate_id_spec "My  Service" := by
  refine ⟨by decide, by decide, by decide⟩

/-- C8 (amended): generate_purl lowercases its input and replaces each space
and each underscore individually by a hyphen (runs become multiple hyphens
and nothing is trimmed), wrapping the result in pkg:frctl/...@local; the
inputs "My Service" and "my_service" still produce the same identifier. -/
theorem C8_amended_generate_purl (name : String) :
    generate_purl name = "pkg:frctl/" ++
      String.mk (name.data.map (fun c =>
        if c.toLower = ' ' then '-' else if c.toLower = '_' then '-' else c.toLower)) ++
      "@local" ∧
    generate_purl "My Service" = generate_purl "my_service" ∧
    generate_purl "My Service" = "pkg:frctl/my-service@local" ∧
    generate_purl "My  Service" = "pkg:frctl/my--service@local" ∧
    generate_purl " x " = "pkg:frctl/-x-@local" := by
  refine ⟨?_, by decide, by decide, by decide, by decide⟩
  unfold generate_purl pyReplaceChar pyLower
  simp only [List.map_map]
  have hfun : ((fun c => if c = '_' then '-' else c) ∘ (fun c => if c = ' ' then '-' else c)
      ∘ Char.toLower) = fun c : Char =>
        if c.toLower = ' ' then '-' else if c.toLower = '_' then '-' else c.toLower := by
    funext c
    simp only [Function.comp]
    by_cases h1 : c.toLower = ' '
    · simp [h1]
    · by_cases h2 : c.toLower = '_'
      · simp [h1, h2]
      · simp [h1, h2]
  rw [hfun]

theorem C8_amended_witness :
    generate_purl "My Service" = "pkg:frctl/" ++
      String.mk ("My Service".data.map (fun c =>
        if c.toLower = ' ' then '-' else if c.toLower = '_' then '-' else c.toLower)) ++
      "@local" :=
  (C8_amended_generate_purl "My Service").1

/-! ## Stable sorting (Python `sorted`)

Python's `sorted` is a stable sort; any stable sort computes the same
output, so it is embedded as stable insertion sort: an element is inserted
after all strictly smaller elements and before equal ones (elements
processed right to left), which preserves the original order of ties. -/

/-- Insert `a` before the first element not strictly below it. -/
def insertSorted {α : Type} (lt : α → α → Bool) (a : α) : List α → List α
  | [] => [a]
  | b :: l => if lt b a then b :: insertSorted lt a l else a :: b :: l

/-- Stable sort by the strict comparison `lt` (Python `sorted`). -/
def sortBy {α : Type} (lt : α → α → Bool) (l : List α) : List α :=
  l.foldr (insertSorted lt) []

theorem insertSorted_perm {α : Type} (lt : α → α → Bool) (a : α) :
    ∀ l : List α, (insertSorted lt a l).Perm (a :: l) := by
  intro l
  induction l with
  | nil => rfl
  | cons b l ih =>
    unfold insertSorted
    by_cases h : lt b a
    · rw [if_pos h]
      exact (ih.cons b).trans (List.Perm.swap a b l)
    · rw [if_neg h]

theorem sortBy_perm {α : Type} (lt : α → α → Bool) :
    ∀ l : List α, (sortBy lt l).Perm l := by
  intro l
  induction l with
  | nil => rfl
  | cons a l ih =>
    show (insertSorted lt a (sortBy lt l)).Perm (a :: l)
    exact (insertSorted_perm lt a (sortBy lt l)).trans (ih.cons a)

theorem insertSorted_pairwise {α : Type} {lt : α → α → Bool}
    (hasym : ∀ x y, lt x y = true → lt y x = false)
    (hnegtrans : ∀ x y z, lt x y = false → lt y z = false → lt x z = false)
    (a : α) : ∀ l : List α, l.Pairwise (fun x y => lt y x = false) →
      (insertSorted lt a l).Pairwise (fun x y => lt y x = false) := by
  intro l
  induction l with
  | nil =>
    intro _
    simp [insertSorted]
  | cons b l ih =>
    intro hp
    obtain ⟨hb, hl⟩ := List.pairwise_cons.mp hp
    unfold insertSorted
    by_cases h : lt b a
    · rw [if_pos h]
      refine List.pairwise_cons.mpr ⟨?_, ih hl⟩
      intro c hc
      have hmem : c ∈ a :: l := (insertSorted_perm lt a l).mem_iff.mp hc
      rcases List.mem_cons.mp hmem with rfl | hcl
      · exact hasym b c h
      · exact hb c hcl
    · rw [if_neg h]
      refine List.pairwise_cons.mpr ⟨?_, hp⟩
      intro c hc
      rcases List.mem_cons.mp hc with rfl | hcl
      · exact Bool.eq_false_iff.mpr h
      · exact hnegtrans c b a (hb c hcl) (Bool.eq_false_iff.mpr h)

theorem sortBy_pairwise {α : Type} {lt : α → α → Bool}
    (hasym : ∀ x y, lt x y = true → lt y x = false)
    (hnegtrans : ∀ x y z, lt x y = false → lt y z = false → lt x z = false)
    (l : List α) : (sortBy lt l).Pairwise (fun x y => lt y x = false) := by
  induction l with
  | nil => simp [sortBy]
  | cons a l ih =>
    exact insertSorted_pairwise hasym hnegtrans a (sortBy lt l) ih

theorem sortBy_eq_self {α : Type} (lt : α → α → Bool) :
    ∀ l : List α, l.Pairwise (fun x y => lt y x = false) → sortBy lt l = l := by
  intro l
  induction l with
  | nil =>
    intro _
    rfl
  | cons a l ih =>
    intro hp
    obtain ⟨ha, hl⟩ := List.pairwise_cons.mp hp
    show insertSorted lt a (sortBy lt l) = a :: l
    rw [ih hl]
    cases l with
    | nil => rfl
    | cons b l2 =>
      unfold insertSorted
      rw [if_neg (by rw [ha b (by simp)]; intro hc; cases hc)]

theorem pairwise_perm_eq {α : Type} {R : α → α → Prop} :
    ∀ (l1 l2 : List α), l1.Perm l2 → l1.Pairwise R → l2.Pairwise R →
      (∀ a ∈ l1, ∀ b ∈ l1, R a b → R b a → a = b) → l1 = l2 := by
  intro l1
  induction l1 with
  | nil =>
    intro l2 hperm _ _ _
    exact List.Perm.nil_eq hperm
  | cons a l1 ih =>
    intro l2 hperm hp1 hp2 hanti
    cases l2 with
    | nil => exact absurd hperm.symm (by simp)
    | cons b l2 =>
      have hab : a = b := by
        by_cases h : a = b
        · exact h
        · have hamem : a ∈ b :: l2 := hperm.subset (by simp)
          have hbmem : b ∈ a :: l1 := hperm.symm.subset (by simp)
          have ha2 : a ∈ l2 := by
            rcases List.mem_cons.mp hamem with h1 | h1
            · exact absurd h1 h
            · exact h1
          have hb1 : b ∈ l1 := by
            rcases List.mem_cons.mp hbmem with h1 | h1
            · exact absurd h1.symm h
            · exact h1
          have hRab : R a b := (List.pairwise_cons.mp hp1).1 b hb1
          have hRba : R b a := (List.pairwise_cons.mp hp2).1 a ha2
          exact hanti a (by simp) b (by simp [hb1]) hRab hRba
      subst hab
      have hperm2 : l1.Perm l2 := hperm.cons_inv
      have heq : l1 = l2 := by
        refine ih l2 hperm2 (List.pairwise_cons.mp hp1).2 (List.pairwise_cons.mp hp2).2 ?_
        intro x hx y hy hxy hyx
        exact hanti x (by simp [hx]) y (by simp [hy]) hxy hyx
      rw [heq]

/-! ## Properties of the code-point comparisons -/

theorem charListLt_asym : ∀ (x y : List Char),
    charListLt x y = true → charListLt y x = false := by
  intro x
  induction x with
  | nil =>
    intro y h
    cases y with
    | nil => cases h
    | cons d ds => rfl
  | cons c cs ih =>
    intro y h
    cases y with
    | nil => cases h
    | cons d ds =>
      unfold charListLt at h ⊢
      by_cases h1 : c.toNat < d.toNat
      · rw [if_neg (by omega), if_pos h1]
      · rw [if_neg h1] at h
        by_cases h2 : d.toNat < c.toNat
        · rw [if_pos h2] at h
          cases h
        · rw [if_neg h2] at h
          rw [if_neg h2, if_neg h1]
          exact ih ds h

theorem charListLt_negtrans : ∀ (x y z : List Char),
    charListLt x y = false → charListLt y z = false → charListLt x z = false := by
  intro x
  induction x with
  | nil =>
    intro y z h1 h2
    cases y with
    | cons d ds => cases h1
    | nil =>
      cases z with
      | cons e es => cases h2
      | nil => rfl
  | cons c cs ih =>
    intro y z h1 h2
    cases z with
    | nil => rfl
    | cons e es =>
      cases y with
      | nil => cases h2
      | cons d ds =>
        unfold charListLt at h1 h2 ⊢
        by_cases hcd : c.toNat < d.toNat
        · rw [if_pos hcd] at h1
          cases h1
        · by_cases hde : d.toNat < e.toNat
          · rw [if_pos hde] at h2
            cases h2
          · by_cases hdc : d.toNat < c.toNat
            · by_cases hed : e.toNat < d.toNat
              · rw [if_neg (by omega), if_pos (by omega)]
              · rw [if_neg (by omega), if_pos (by omega)]
            · by_cases hed : e.toNat < d.toNat
              · rw [if_neg (by omega), if_pos (by omega)]
              · rw [if_neg hcd, if_neg hdc] at h1
                rw [if_neg hde, if_neg hed] at h2
                rw [if_neg (by omega), if_neg (by omega)]
                exact ih ds es h1 h2

theorem charListLt_antisym : ∀ (x y : List Char),
    charListLt x y = false → charListLt y x = false → x = y := by
  intro x
  induction x with
  | nil =>
    intro y h1 _
    cases y with
    | nil => rfl
    | cons d ds => cases h1
  | cons c cs ih =>
    intro y h1 h2
    cases y with
    | nil => cases h2
    | cons d ds =>
      unfold charListLt at h1 h2
      by_cases hcd : c.toNat < d.toNat
      · rw [if_pos hcd] at h1
        cases h1
      · by_cases hdc : d.toNat < c.toNat
        · rw [if_pos hdc] at h2
          cases h2
        · rw [if_neg hcd, if_neg hdc] at h1
          rw [if_neg hdc, if_neg hcd] at h2
          have hc : c = d := by
            have hn : c.toNat = d.toNat := by omega
            exact Char.eq_of_val_eq (UInt32.ext hn)
          rw [hc, ih ds h1 h2]

theorem strLt_asym (x y : String) : strLt x y = true → strLt y x = false :=
  charListLt_asym x.data y.data

theorem strLt_negtrans (x y z : String) :
    strLt x y = false → strLt y z = false → strLt x z = false :=
  charListLt_negtrans x.data y.data z.data

theorem strLt_antisym (x y : String) : strLt x y = false → strLt y x = false → x = y := by
  intro h1 h2
  have hd := charListLt_antisym x.data y.data h1 h2
  cases x
  cases y
  rw [show ∀ a b : List Char, String.mk a = String.mk b ↔ a = b from fun a b => by
    constructor
    · intro h
      injection h
    · intro h
      rw [h]]
  exact hd

theorem strLt_irrefl (x : String) : strLt x x = false := by
  by_cases h : strLt x x = true
  · have := strLt_asym x x h
    rw [h] at this
    cases this
  · exact Bool.eq_false_iff.mpr h

theorem pairLt_asym (a b : String × String) : pairLt a b = true → pairLt b a = false := by
  unfold pairLt
  intro h
  rcases Bool.or_eq_true_iff.mp h with h1 | h1
  · have hne : b.1 ≠ a.1 := by
      intro he
      rw [← he] at h1
      rw [strLt_irrefl] at h1
      cases h1
    rw [strLt_asym _ _ h1]
    simp [hne]
  · obtain ⟨he, h2⟩ := Bool.and_eq_true_iff.mp h1
    have he2 : a.1 = b.1 := by simpa using he
    rw [← he2, strLt_irrefl]
    rw [strLt_asym _ _ h2]
    simp

theorem pairLt_false_iff (a b : String × String) :
    pairLt a b = false ↔ strLt a.1 b.1 = false ∧ (a.1 = b.1 → strLt a.2 b.2 = false) := by
  unfold pairLt
  rw [Bool.or_eq_false_iff, Bool.and_eq_false_iff]
  constructor
  · rintro ⟨h1, h2⟩
    refine ⟨h1, fun he => ?_⟩
    rcases h2 with h2 | h2
    · rw [he] at h2
      simp at h2
    · exact h2
  · rintro ⟨h1, h2⟩
    refine ⟨h1, ?_⟩
    by_cases he : a.1 = b.1
    · exact Or.inr (h2 he)
    · exact Or.inl (by simpa using he)

theorem pairLt_negtrans (a b c : String × String) :
    pairLt a b = false → pairLt b c = false → pairLt a c = false := by
  intro h1 h2
  obtain ⟨h11, h12⟩ := (pairLt_false_iff a b).mp h1
  obtain ⟨h21, h22⟩ := (pairLt_false_iff b c).mp h2
  rw [pairLt_false_iff]
  refine ⟨strLt_negtrans _ _ _ h11 h21, ?_⟩
  intro he
  have hba : strLt b.1 a.1 = false := by
    refine strLt_negtrans _ _ _ h21 ?_
    rw [← he]
    exact strLt_irrefl a.1
  have heab : a.1 = b.1 := strLt_antisym _ _ h11 hba
  have hebc : b.1 = c.1 := heab ▸ he
  exact strLt_negtrans _ _ _ (h12 heab) (h22 hebc)

theorem pairLt_antisym (a b : String × String) :
    pairLt a b = false → pairLt b a = false → a = b := by
  intro h1 h2
  obtain ⟨h11, h12⟩ := (pairLt_false_iff a b).mp h1
  obtain ⟨h21, h22⟩ := (pairLt_false_iff b a).mp h2
  have he1 : a.1 = b.1 := strLt_antisym _ _ h11 h21
  have he2 : a.2 = b.2 := strLt_antisym _ _ (h12 he1) (h22 he1.symm)
  exact Prod.ext he1 he2

/-! ## Serialization: raw DAG-JSON documents (to_dict / from_dict)

A `RawDoc` models the Python dictionary produced by `to_dict` and consumed
by `from_dict`: enum fields appear as their string tags, node entries are
keyed by id, edges are a list. -/

/-- A node dictionary (`node.model_dump()` with the enum as its tag). -/
structure RawNode where
  id : String
  type : String
  name : String
  metadata : Metadata
deriving DecidableEq

/-- An edge dictionary. -/
structure RawEdge where
  source : String
  target : String
  edge_type : String
  metadata : Metadata
  contract : Option String
deriving DecidableEq

/-- The DAG-JSON document: graph metadata, nodes keyed by id, edge list. -/
structure RawDoc where
  metadata : Metadata
  nodes : List (String × RawNode)
  edges : List RawEdge
deriving DecidableEq

/-- Node dictionary of a Node (model_dump with string enum tag). -/
def rawOfNode (n : Node) : RawNode := ⟨n.id, n.type.value, n.name, n.metadata⟩

/-- Edge dictionary of an Edge. -/
def rawOfEdge (e : Edge) : RawEdge :=
  ⟨e.source, e.target, e.edge_type.value, e.metadata, e.contract⟩

/-- Comparison on node/metadata dict entries: by key (Python sorts dict
items; keys are unique so the key decides). -/
def keyLt {α : Type} (a b : String × α) : Bool := strLt a.1 b.1

/-- Comparison used by `sorted(self.edges, key=lambda e: (e.source,
e.target))`. -/
def edgeLt (a b : Edge) : Bool := pairLt (a.source, a.target) (b.source, b.target)

/-- FederatedGraph.to_dict: node entries sorted ascending by id, edges
stably sorted by (source, target), metadata entries sorted by key. -/
def FederatedGraph.to_dict (g : FederatedGraph) : RawDoc :=
  { metadata := sortBy keyLt g.metadata,
    nodes := (sortBy keyLt g.nodes).map (fun p => (p.1, rawOfNode p.2)),
    edges := (sortBy edgeLt g.edges).map rawOfEdge }

/-- pydantic validation of a raw node: non-empty stripped id and name, and
the type tag must be a known NodeType value. -/
def pydanticNode (rn : RawNode) : Except GraphError Node :=
  if pyStrip rn.id = "" then .error (.validationError "Node id cannot be empty")
  else
    match NodeType.fromValue rn.type with
    | none => .error (.validationError ("Input should be a valid NodeType: " ++ rn.type))
    | some t =>
      if pyStrip rn.name = "" then .error (.validationError "Node name cannot be empty")
      else .ok ⟨pyStrip rn.id, t, pyStrip rn.name, rn.metadata⟩

/-- pydantic validation of a raw edge: non-empty stripped endpoints, known
EdgeType tag, and contract normalization (blank becomes absent). -/
def pydanticEdge (re : RawEdge) : Except GraphError Edge :=
  if pyStrip re.source = "" then .error (.validationError "Node ID cannot be empty")
  else if pyStrip re.target = "" then .error (.validationError "Node ID cannot be empty")
  else
    match EdgeType.fromValue re.edge_type with
    | none => .error (.validationError ("Input should be a valid EdgeType: " ++ re.edge_type))
    | some t =>
      .ok ⟨pyStrip re.source, pyStrip re.target, t, re.metadata,
        match re.contract with
        | none => none
        | some s => if pyStrip s = "" then none else some (pyStrip s)⟩

/-- Python dict assignment `graph.nodes[node_id] = node`: overwrite in place
if the key exists, else append. -/
def dictInsertNode (nodes : List (String × Node)) (k : String) (n : Node) :
    List (String × Node) :=
  if nodes.any (fun p => p.1 == k) then
    nodes.map (fun p => if p.1 == k then (k, n) else p)
  else nodes ++ [(k, n)]

/-- The node-loading loop of from_dict. -/
def loadNodes (acc : List (String × Node)) :
    List (String × RawNode) → Except GraphError (List (String × Node))
  | [] => .ok acc
  | kv :: rest =>
    match pydanticNode kv.2 with
    | .error e => .error e
    | .ok n => loadNodes (dictInsertNode acc kv.1 n) rest

/-- The edge-loading loop of from_dict. -/
def loadEdges (acc : List Edge) : List RawEdge → Except GraphError (List Edge)
  | [] => .ok acc
  | re :: rest =>
    match pydanticEdge re with
    | .error e => .error e
    | .ok e => loadEdges (acc ++ [e]) rest

/-- FederatedGraph.from_dict: loads metadata, nodes and edges in order; any
pydantic failure aborts the whole load.  Note: no structural re-validation
is performed. -/
def FederatedGraph.from_dict (d : RawDoc) : Except GraphError FederatedGraph :=
  match loadNodes [] d.nodes with
  | .error e => .error e
  | .ok nodes =>
    match loadEdges [] d.edges with
    | .error e => .error e
    | .ok edges => .ok ⟨nodes, edges, d.metadata⟩

/-! ## json.dumps with sort_keys=True (canonical serialization) -/

/-- Lowercase hex digit. -/
def hexDigit (n : Nat) : Char :=
  if n < 10 then Char.ofNat (48 + n) else Char.ofNat (87 + n)

/-- A \uXXXX escape. -/
def uEscape (n : Nat) : List Char :=
  ['\\', 'u', hexDigit (n / 4096 % 16), hexDigit (n / 256 % 16),
    hexDigit (n / 16 % 16), hexDigit (n % 16)]

/-- Python json character escaping with ensure_ascii=True. -/
def jsonEscapeChar (c : Char) : List Char :=
  if c = '"' then ['\\', '"']
  else if c = '\\' then ['\\', '\\']
  else if c = '\n' then ['\\', 'n']
  else if c = '\t' then ['\\', 't']
  else if c = '\x0d' then ['\\', 'r']
  else if c = '\x08' then ['\\', 'b']
  else if c = '\x0c' then ['\\', 'f']
  else if c.toNat < 32 then uEscape c.toNat
  else if c.toNat < 127 then [c]
  else if c.toNat < 65536 then uEscape c.toNat
  else
    uEscape (55296 + (c.toNat - 65536) / 1024) ++ uEscape (56320 + (c.toNat - 65536) % 1024)

/-- A JSON string literal. -/
def jsonString (s : String) : String :=
  "\"" ++ String.mk (s.data.flatMap jsonEscapeChar) ++ "\""

/-- Decimal rendering of an integer (Python str(int)). -/
def intDump (n : Int) : String :=
  if n < 0 then "-" ++ Nat.repr n.natAbs else Nat.repr n.natAbs

/-- Comma-space separated join (default json.dumps item separator). -/
def joinComma : List String → String
  | [] => ""
  | [s] => s
  | s :: rest => s ++ ", " ++ joinComma rest

/-- Assemble a JSON object body from already-dumped (key, value) entries,
sorting the keys as sort_keys=True does. -/
def dumpObjEntries (entries : List (String × String)) : String :=
  joinComma ((sortBy keyLt entries).map (fun p => jsonString p.1 ++ ": " ++ p.2))

mutual

/-- json.dumps of a metadata value, with sorted object keys. -/
def dumpJValue : JValue → String
  | .null => "null"
  | .bool true => "true"
  | .bool false => "false"
  | .num n => intDump n
  | .str s => jsonString s
  | .arr xs => "[" ++ dumpJArray xs ++ "]"
  | .obj kvs => "\x7b" ++ dumpObjEntries (dumpJObjEntries kvs) ++ "\x7d"

/-- Comma-joined dump of an array. -/
def dumpJArray : JArray → String
  | .nil => ""
  | .cons hd .nil => dumpJValue hd
  | .cons hd tl => dumpJValue hd ++ ", " ++ dumpJArray tl

/-- Dump each object entry, keeping the keys for sorting. -/
def dumpJObjEntries : JObject → List (String × String)
  | .nil => []
  | .cons k v tl => (k, dumpJValue v) :: dumpJObjEntries tl

end

/-- json.dumps of a metadata dict. -/
def dumpMetadata (m : Metadata) : String :=
  "\x7b" ++ dumpObjEntries (m.map (fun p => (p.1, dumpJValue p.2))) ++ "\x7d"

/-- json.dumps of a node dictionary (keys sorted: id, metadata, name,
type). -/
def dumpRawNode (rn : RawNode) : String :=
  "\x7b" ++ jsonString "id" ++ ": " ++ jsonString rn.id
    ++ ", " ++ jsonString "metadata" ++ ": " ++ dumpMetadata rn.metadata
    ++ ", " ++ jsonString "name" ++ ": " ++ jsonString rn.name
    ++ ", " ++ jsonString "type" ++ ": " ++ jsonString rn.type ++ "\x7d"

/-- json.dumps of an edge dictionary (keys sorted: contract, edge_type,
metadata, source, target). -/
def dumpRawEdge (re : RawEdge) : String :=
  "\x7b" ++ jsonString "contract" ++ ": "
    ++ (match re.contract with | none => "null" | some s => jsonString s)
    ++ ", " ++ jsonString "edge_type" ++ ": " ++ jsonString re.edge_type
    ++ ", " ++ jsonString "metadata" ++ ": " ++ dumpMetadata re.metadata
    ++ ", " ++ jsonString "source" ++ ": " ++ jsonString re.source
    ++ ", " ++ jsonString "target" ++ ": " ++ jsonString re.target ++ "\x7d"

/-- json.dumps(doc, sort_keys=True): top-level keys sorted (edges, metadata,
nodes); the node dict keys sorted; the edge list kept in document order. -/
def dumpRawDoc (d : RawDoc) : String :=
  "\x7b" ++ jsonString "edges" ++ ": "
    ++ "[" ++ joinComma (d.edges.map dumpRawEdge) ++ "]"
    ++ ", " ++ jsonString "metadata" ++ ": " ++ dumpMetadata d.metadata
    ++ ", " ++ jsonString "nodes" ++ ": "
    ++ "\x7b" ++ joinComma ((sortBy keyLt d.nodes).map
        (fun p => jsonString p.1 ++ ": " ++ dumpRawNode p.2)) ++ "\x7d"
    ++ "\x7d"

/-! ## SHA-256 (hashlib.sha256 over the canonical JSON bytes)

Words are naturals reduced modulo 2^32. -/

/-- 32-bit truncation. -/
def w32 (x : Nat) : Nat := x % 4294967296

/-- 32-bit addition. -/
def add32 (a b : Nat) : Nat := (a + b) % 4294967296

/-- Right rotation of a 32-bit word. -/
def rotr32 (n x : Nat) : Nat := ((x >>> n) ||| (x <<< (32 - n))) % 4294967296

/-- Bitwise complement of a 32-bit word. -/
def not32 (x : Nat) : Nat := Nat.xor x 4294967295

/-- SHA-256 big sigma 0. -/
def bSig0 (x : Nat) : Nat := Nat.xor (Nat.xor (rotr32 2 x) (rotr32 13 x)) (rotr32 22 x)

/-- SHA-256 big sigma 1. -/
def bSig1 (x : Nat) : Nat := Nat.xor (Nat.xor (rotr32 6 x) (rotr32 11 x)) (rotr32 25 x)

/-- SHA-256 small sigma 0. -/
def sSig0 (x : Nat) : Nat := Nat.xor (Nat.xor (rotr32 7 x) (rotr32 18 x)) (x >>> 3)

/-- SHA-256 small sigma 1. -/
def sSig1 (x : Nat) : Nat := Nat.xor (Nat.xor (rotr32 17 x) (rotr32 19 x)) (x >>> 10)

/-- SHA-256 choice function. -/
def chF (x y z : Nat) : Nat := Nat.xor (Nat.land x y) (Nat.land (not32 x) z)

/-- SHA-256 majority function. -/
def majF (x y z : Nat) : Nat :=
  Nat.xor (Nat.xor (Nat.land x y) (Nat.land x z)) (Nat.land y z)

/-- The 64 SHA-256 round constants. -/
def sha256K : List Nat :=
  [0x428a2f98, 0x71374491, 0xb5c0fbcf, 0xe9b5dba5, 0x3956c25b, 0x59f111f1,
    0x923f82a4, 0xab1c5ed5, 0xd807aa98, 0x12835b01, 0x243185be, 0x550c7dc3,
    0x72be5d74, 0x80deb1fe, 0x9bdc06a7, 0xc19bf174, 0xe49b69c1, 0xefbe4786,
    0x0fc19dc6, 0x240ca1cc, 0x2de92c6f, 0x4a7484aa, 0x5cb0a9dc, 0x76f988da,
    0x983e5152, 0xa831c66d, 0xb00327c8, 0xbf597fc7, 0xc6e00bf3, 0xd5a79147,
    0x06ca6351, 0x14292967, 0x27b70a85, 0x2e1b2138, 0x4d2c6dfc, 0x53380d13,
    0x650a7354, 0x766a0abb, 0x81c2c92e, 0x92722c85, 0xa2bfe8a1, 0xa81a664b,
    0xc24b8b70, 0xc76c51a3, 0xd192e819, 0xd6990624, 0xf40e3585, 0x106aa070,
    0x19a4c116, 0x1e376c08, 0x2748774c, 0x34b0bcb5, 0x391c0cb3, 0x4ed8aa4a,
    0x5b9cca4f, 0x682e6ff3, 0x748f82ee, 0x78a5636f, 0x84c87814, 0x8cc70208,
    0x90befffa, 0xa4506ceb, 0xbef9a3f7, 0xc67178f2]

/-- Working state: eight 32-bit words. -/
structure Hash8 where
  a : Nat
  b : Nat
  c : Nat
  d : Nat
  e : Nat
  f : Nat
  g : Nat
  h : Nat
deriving DecidableEq

/-- The SHA-256 initial hash value. -/
def sha256H0 : Hash8 :=
  ⟨0x6a09e667, 0xbb67ae85, 0x3c6ef372, 0xa54ff53a,
    0x510e527f, 0x9b05688c, 0x1f83d9ab, 0x5be0cd19⟩

/-- SHA-256 padding: append 0x80, zeros to 56 mod 64, then the bit length
as 8 big-endian bytes. -/
def padMessage (msg : List Nat) : List Nat :=
  let L := msg.length
  let zeros := (119 - L % 64) % 64
  let bitLen := 8 * L
  msg ++ [128] ++ List.replicate zeros 0 ++
    [bitLen / 72057594037927936 % 256, bitLen / 281474976710656 % 256,
      bitLen / 1099511627776 % 256, bitLen / 4294967296 % 256,
      bitLen / 16777216 % 256, bitLen / 65536 % 256,
      bitLen / 256 % 256, bitLen % 256]

/-- Big-endian grouping of bytes into 32-bit words. -/
def bytesToWords : List Nat → List Nat
  | b1 :: b2 :: b3 :: b4 :: rest =>
    (b1 * 16777216 + b2 * 65536 + b3 * 256 + b4) :: bytesToWords rest
  | _ => []

/-- Message-schedule extension, keeping the schedule reversed (most recent
word first); runs 48 times. -/
def extendScheduleRev : Nat → List Nat → List Nat
  | 0, rws => rws
  | k + 1, rws =>
    extendScheduleRev k
      ((add32 (add32 (sSig1 (rws.getD 1 0)) (rws.getD 6 0))
        (add32 (sSig0 (rws.getD 14 0)) (rws.getD 15 0))) :: rws)

/-- The 64 compression rounds. -/
def compressRounds : List Nat → List Nat → Hash8 → Hash8
  | kc :: ks, w :: ws, st =>
    let t1 := add32 (add32 (add32 st.h (bSig1 st.e)) (add32 (chF st.e st.f st.g) kc)) w
    let t2 := add32 (bSig0 st.a) (majF st.a st.b st.c)
    compressRounds ks ws ⟨add32 t1 t2, st.a, st.b, st.c, add32 st.d t1, st.e, st.f, st.g⟩
  | _, _, st => st

/-- Compress one 16-word block into the hash state. -/
def compressBlock (hs : Hash8) (block : List Nat) : Hash8 :=
  let ws := (extendScheduleRev 48 block.reverse).reverse
  let r := compressRounds sha256K ws hs
  ⟨add32 hs.a r.a, add32 hs.b r.b, add32 hs.c r.c, add32 hs.d r.d,
    add32 hs.e r.e, add32 hs.f r.f, add32 hs.g r.g, add32 hs.h r.h⟩

/-- Fold the compression over the padded message, 16 words at a time. -/
def sha256Blocks : Hash8 → List Nat → Hash8
  | hs, w1 :: w2 :: w3 :: w4 :: w5 :: w6 :: w7 :: w8 :: w9 :: w10 :: w11 :: w12
      :: w13 :: w14 :: w15 :: w16 :: rest =>
    sha256Blocks (compressBlock hs
      [w1, w2, w3, w4, w5, w6, w7, w8, w9, w10, w11, w12, w13, w14, w15, w16]) rest
  | hs, _ => hs

/-- Lowercase hex rendering of one 32-bit word. -/
def wordToHex (w : Nat) : List Char :=
  [hexDigit (w / 268435456 % 16), hexDigit (w / 16777216 % 16),
    hexDigit (w / 1048576 % 16), hexDigit (w / 65536 % 16),
    hexDigit (w / 4096 % 16), hexDigit (w / 256 % 16),
    hexDigit (w / 16 % 16), hexDigit (w % 16)]

/-- SHA-256 of a byte list, as a lowercase hex string. -/
def sha256Hex (msg : List Nat) : String :=
  let hs := sha256Blocks sha256H0 (bytesToWords (padMessage msg))
  String.mk (wordToHex hs.a ++ wordToHex hs.b ++ wordToHex hs.c ++ wordToHex hs.d
    ++ wordToHex hs.e ++ wordToHex hs.f ++ wordToHex hs.g ++ wordToHex hs.h)

/-- UTF-8 bytes of the (ASCII-only) canonical JSON string. -/
def strBytes (s : String) : List Nat := s.data.map Char.toNat

/-- FederatedGraph.merkle_hash: SHA-256 of the canonical JSON document. -/
def FederatedGraph.merkle_hash (g : FederatedGraph) : String :=
  sha256Hex (strBytes (dumpRawDoc g.to_dict))

/-! ## Properties of the canonicalizer -/

theorem keyLt_asym {α : Type} (x y : String × α) : keyLt x y = true → keyLt y x = false :=
  strLt_asym x.1 y.1

theorem keyLt_negtrans {α : Type} (x y z : String × α) :
    keyLt x y = false → keyLt y z = false → keyLt x z = false :=
  strLt_negtrans x.1 y.1 z.1

theorem edgeLt_asym (x y : Edge) : edgeLt x y = true → edgeLt y x = false :=
  pairLt_asym _ _

theorem edgeLt_negtrans (x y z : Edge) :
    edgeLt x y = false → edgeLt y z = false → edgeLt x z = false :=
  pairLt_negtrans _ _ _

/-- Two permuted entry lists with unique keys sort to the same list. -/
theorem sortBy_keyLt_eq_of_perm {α : Type} {l1 l2 : List (String × α)}
    (hperm : l1.Perm l2) (hnd : (l1.map (fun p => p.1)).Nodup) :
    sortBy keyLt l1 = sortBy keyLt l2 := by
  refine pairwise_perm_eq (sortBy keyLt l1) (sortBy keyLt l2)
    ((sortBy_perm keyLt l1).trans (hperm.trans (sortBy_perm keyLt l2).symm))
    (sortBy_pairwise keyLt_asym keyLt_negtrans l1)
    (sortBy_pairwise keyLt_asym keyLt_negtrans l2) ?_
  intro a ha b hb hab hba
  have ha1 : a ∈ l1 := (sortBy_perm keyLt l1).subset ha
  have hb1 : b ∈ l1 := (sortBy_perm keyLt l1).subset hb
  have hkey : a.1 = b.1 := strLt_antisym a.1 b.1 hba hab
  exact List.inj_on_of_nodup_map hnd ha1 hb1 hkey

/-- Two permuted edge lists with at most one edge per (source, target) pair
sort to the same list. -/
theorem sortBy_edgeLt_eq_of_perm {l1 l2 : List Edge}
    (hperm : l1.Perm l2) (hnd : (l1.map (fun e => (e.source, e.target))).Nodup) :
    sortBy edgeLt l1 = sortBy edgeLt l2 := by
  refine pairwise_perm_eq (sortBy edgeLt l1) (sortBy edgeLt l2)
    ((sortBy_perm edgeLt l1).trans (hperm.trans (sortBy_perm edgeLt l2).symm))
    (sortBy_pairwise edgeLt_asym edgeLt_negtrans l1)
    (sortBy_pairwise edgeLt_asym edgeLt_negtrans l2) ?_
  intro a ha b hb hab hba
  have ha1 : a ∈ l1 := (sortBy_perm edgeLt l1).subset ha
  have hb1 : b ∈ l1 := (sortBy_perm edgeLt l1).subset hb
  have hkey : (a.source, a.target) = (b.source, b.target) := pairLt_antisym _ _ hba hab
  exact List.inj_on_of_nodup_map hnd ha1 hb1 hkey

/-- Content-equal graphs (same bindings, insertion order aside, with unique
node keys, unique edge pairs and unique metadata keys) have equal canonical
dictionaries. -/
theorem to_dict_eq_of_content_eq {g1 g2 : FederatedGraph}
    (hn : g1.nodes.Perm g2.nodes) (hnk : (g1.nodes.map (fun p => p.1)).Nodup)
    (he : g1.edges.Perm g2.edges)
    (hek : (g1.edges.map (fun e => (e.source, e.target))).Nodup)
    (hm : g1.metadata.Perm g2.metadata) (hmk : (g1.metadata.map (fun p => p.1)).Nodup) :
    g1.to_dict = g2.to_dict := by
  unfold FederatedGraph.to_dict
  rw [sortBy_keyLt_eq_of_perm hn hnk, sortBy_edgeLt_eq_of_perm he hek,
    sortBy_keyLt_eq_of_perm hm hmk]

/-- The hex digit characters. -/
def hexChars : List Char :=
  ['0', '1', '2', '3', '4', '5', '6', '7', '8', '9', 'a', 'b', 'c', 'd', 'e', 'f']

theorem hexDigit_mem (n : Nat) (h : n < 16) : hexDigit n ∈ hexChars := by
  interval_cases n <;> decide

theorem wordToHex_mem (w : Nat) (c : Char) (hc : c ∈ wordToHex w) : c ∈ hexChars := by
  unfold wordToHex at hc
  simp only [List.mem_cons, List.not_mem_nil, or_false] at hc
  rcases hc with h | h | h | h | h | h | h | h <;>
    (rw [h]; exact hexDigit_mem _ (Nat.mod_lt _ (by omega)))

theorem sha256Hex_length (msg : List Nat) : (sha256Hex msg).length = 64 := by
  unfold sha256Hex
  show (String.mk _).length = 64
  simp [String.length, wordToHex]

theorem mem_hexChars_of_append8 {l1 l2 l3 l4 l5 l6 l7 l8 : List Char}
    (h1 : ∀ c ∈ l1, c ∈ hexChars) (h2 : ∀ c ∈ l2, c ∈ hexChars)
    (h3 : ∀ c ∈ l3, c ∈ hexChars) (h4 : ∀ c ∈ l4, c ∈ hexChars)
    (h5 : ∀ c ∈ l5, c ∈ hexChars) (h6 : ∀ c ∈ l6, c ∈ hexChars)
    (h7 : ∀ c ∈ l7, c ∈ hexChars) (h8 : ∀ c ∈ l8, c ∈ hexChars) :
    ∀ c ∈ l1 ++ l2 ++ l3 ++ l4 ++ l5 ++ l6 ++ l7 ++ l8, c ∈ hexChars := by
  intro c hc
  simp only [List.mem_append] at hc
  rcases hc with ((((((h | h) | h) | h) | h) | h) | h) | h
  · exact h1 c h
  · exact h2 c h
  · exact h3 c h
  · exact h4 c h
  · exact h5 c h
  · exact h6 c h
  · exact h7 c h
  · exact h8 c h

theorem sha256Hex_hex (msg : List Nat) : ∀ c ∈ (sha256Hex msg).data, c ∈ hexChars :=
  mem_hexChars_of_append8 (wordToHex_mem _) (wordToHex_mem _) (wordToHex_mem _)
    (wordToHex_mem _) (wordToHex_mem _) (wordToHex_mem _) (wordToHex_mem _) (wordToHex_mem _)

/-- Inversion of a successful add_node. -/
theorem add_node_ok_inv {g : FederatedGraph} {n : Node} {g2 : FederatedGraph}
    (h : g.add_node n = .ok g2) : g2 = { g with nodes := g.nodes ++ [(n.id, n)] } := by
  unfold FederatedGraph.add_node at h
  by_cases hc : g.containsNode n.id
  · simp [hc] at h
  · simp only [hc, Bool.false_eq_true, if_false, Except.ok.injEq] at h
    exact h.symm

/-- Inversion of a successful add_edge. -/
theorem add_edge_ok_inv {g : FederatedGraph} {e : Edge} {g2 : FederatedGraph}
    (h : g.add_edge e = .ok g2) : g2 = { g with edges := g.edges ++ [e] } := by
  unfold FederatedGraph.add_edge at h
  by_cases hs : g.containsNode e.source
  · by_cases ht : g.containsNode e.target
    · by_cases hdag : is_directed_acyclic_graph (dedupPairs (edgePairs (g.edges ++ [e])))
      · simp only [hs, ht, hdag, not_true, Bool.false_eq_true, if_false, if_true,
          Except.ok.injEq] at h
        exact h.symm
      · simp [hs, ht, hdag] at h
    · simp [hs, ht] at h
  · simp [hs] at h

theorem to_dict_nodes_length (g : FederatedGraph) :
    g.to_dict.nodes.length = g.nodes.length := by
  unfold FederatedGraph.to_dict
  simp [(sortBy_perm keyLt g.nodes).length_eq]

theorem to_dict_edges_length (g : FederatedGraph) :
    g.to_dict.edges.length = g.edges.length := by
  unfold FederatedGraph.to_dict
  simp [(sortBy_perm edgeLt g.edges).length_eq]

/-! ## Round-trip support -/

/-- A node as produced by pydantic validation: stripped, non-empty id and
name. -/
def ValidNode (n : Node) : Prop :=
  pyStrip n.id = n.id ∧ n.id ≠ "" ∧ pyStrip n.name = n.name ∧ n.name ≠ ""

/-- A valid contract reference: absent, or stripped and non-empty. -/
def validContract : Option String → Prop
  | none => True
  | some s => pyStrip s = s ∧ s ≠ ""

instance instDecValidContract : ∀ o, Decidable (validContract o)
  | none => .isTrue trivial
  | some _ => inferInstanceAs (Decidable (_ ∧ _))

/-- An edge as produced by pydantic validation. -/
def ValidEdge (e : Edge) : Prop :=
  pyStrip e.source = e.source ∧ e.source ≠ "" ∧ pyStrip e.target = e.target ∧
    e.target ≠ "" ∧ validContract e.contract

instance instDecValidNode (n : Node) : Decidable (ValidNode n) := by
  unfold ValidNode
  infer_instance

instance instDecValidEdge (e : Edge) : Decidable (ValidEdge e) := by
  unfold ValidEdge
  infer_instance

theorem nodeType_fromValue_value (t : NodeType) : NodeType.fromValue t.value = some t := by
  cases t <;> rfl

theorem edgeType_fromValue_value (t : EdgeType) : EdgeType.fromValue t.value = some t := by
  cases t <;> rfl

theorem pydanticNode_rawOfNode {n : Node} (h : ValidNode n) :
    pydanticNode (rawOfNode n) = .ok n := by
  obtain ⟨h1, h2, h3, h4⟩ := h
  unfold pydanticNode rawOfNode
  simp only [h1, h3, nodeType_fromValue_value]
  rw [if_neg h2, if_neg h4]

theorem pydanticEdge_rawOfEdge {e : Edge} (h : ValidEdge e) :
    pydanticEdge (rawOfEdge e) = .ok e := by
  obtain ⟨h1, h2, h3, h4, h5⟩ := h
  unfold pydanticEdge rawOfEdge
  simp only [h1, h3, edgeType_fromValue_value]
  rw [if_neg h2, if_neg h4]
  have hcontract : (match e.contract with
      | none => none
      | some s => if pyStrip s = "" then none else some (pyStrip s)) = e.contract := by
    cases hco : e.contract with
    | none => rfl
    | some s =>
      rw [hco] at h5
      obtain ⟨h6, h7⟩ := h5
      simp only [h6]
      rw [if_neg h7]
  rw [hcontract]

theorem loadNodes_roundtrip :
    ∀ (l acc : List (String × Node)),
      (((acc ++ l).map (fun p => p.1)).Nodup) →
      (∀ p ∈ l, ValidNode p.2) →
      loadNodes acc (l.map (fun p => (p.1, rawOfNode p.2))) = .ok (acc ++ l) := by
  intro l
  induction l with
  | nil =>
    intro acc _ _
    rw [List.append_nil]
    rfl
  | cons p rest ih =>
    intro acc hnd hval
    rw [List.map_cons]
    have hstep : loadNodes acc ((p.1, rawOfNode p.2) :: rest.map (fun q => (q.1, rawOfNode q.2)))
        = loadNodes (dictInsertNode acc p.1 p.2) (rest.map (fun q => (q.1, rawOfNode q.2))) := by
      simp only [loadNodes]
      rw [pydanticNode_rawOfNode (hval p (by simp))]
    rw [hstep]
    have hfresh : ¬ (acc.any (fun q => q.1 == p.1) = true) := by
      intro hc
      rw [List.any_eq_true] at hc
      obtain ⟨q, hq, hqe⟩ := hc
      have hqp : q.1 = p.1 := by simpa using hqe
      rw [List.map_append] at hnd
      have hdisj := (List.nodup_append.mp hnd).2.2
      refine hdisj (List.mem_map.mpr ⟨q, hq, rfl⟩) ?_
      rw [hqp]
      simp
    have hins : dictInsertNode acc p.1 p.2 = acc ++ [p] := by
      unfold dictInsertNode
      rw [if_neg hfresh, Prod.mk.eta]
    rw [hins]
    have hre : (acc ++ [p]) ++ rest = acc ++ p :: rest := by
      rw [List.append_assoc]
      rfl
    have hnd2 : (((acc ++ [p]) ++ rest).map (fun p => p.1)).Nodup := by
      rw [hre]
      exact hnd
    rw [ih (acc ++ [p]) hnd2 (fun q hq => hval q (by simp [hq])), hre]

theorem loadEdges_roundtrip :
    ∀ (l acc : List Edge), (∀ e ∈ l, ValidEdge e) →
      loadEdges acc (l.map rawOfEdge) = .ok (acc ++ l) := by
  intro l
  induction l with
  | nil =>
    intro acc _
    rw [List.append_nil]
    rfl
  | cons e rest ih =>
    intro acc hval
    rw [List.map_cons]
    have hstep : loadEdges acc (rawOfEdge e :: rest.map rawOfEdge)
        = loadEdges (acc ++ [e]) (rest.map rawOfEdge) := by
      simp only [loadEdges]
      rw [pydanticEdge_rawOfEdge (hval e (by simp))]
    rw [hstep]
    have hre : (acc ++ [e]) ++ rest = acc ++ e :: rest := by
      rw [List.append_assoc]
      rfl
    rw [ih (acc ++ [e]) (fun q hq => hval q (by simp [hq])), hre]

theorem loadNodes_ok_entries :
    ∀ (l : List (String × RawNode)) (acc res : List (String × Node)),
      loadNodes acc l = .ok res → ∀ kv ∈ l, ∃ n, pydanticNode kv.2 = .ok n := by
  intro l
  induction l with
  | nil =>
    intro acc res _ kv hkv
    simp at hkv
  | cons kv0 rest ih =>
    intro acc res hok kv hkv
    unfold loadNodes at hok
    cases hn : pydanticNode kv0.2 with
    | error e =>
      rw [hn] at hok
      cases hok
    | ok n =>
      rw [hn] at hok
      rcases List.mem_cons.mp hkv with rfl | hkv2
      · exact ⟨n, hn⟩
      · exact ih _ res hok kv hkv2

theorem loadEdges_ok_entries :
    ∀ (l : List RawEdge) (acc res : List Edge),
      loadEdges acc l = .ok res → ∀ re ∈ l, ∃ e, pydanticEdge re = .ok e := by
  intro l
  induction l with
  | nil =>
    intro acc res _ re hre
    simp at hre
  | cons re0 rest ih =>
    intro acc res hok re hre
    unfold loadEdges at hok
    cases hn : pydanticEdge re0 with
    | error e =>
      rw [hn] at hok
      cases hok
    | ok e =>
      rw [hn] at hok
      rcases List.mem_cons.mp hre with rfl | hre2
      · exact ⟨e, hn⟩
      · exact ih _ res hok re hre2

theorem pydanticNode_badTag {rn : RawNode} (h : NodeType.fromValue rn.type = none) :
    ∀ n, pydanticNode rn ≠ .ok n := by
  intro n hc
  unfold pydanticNode at hc
  by_cases he : pyStrip rn.id = ""
  · rw [if_pos he] at hc
    cases hc
  · rw [if_neg he, h] at hc
    cases hc

theorem pydanticEdge_badTag {re : RawEdge} (h : EdgeType.fromValue re.edge_type = none) :
    ∀ e, pydanticEdge re ≠ .ok e := by
  intro e hc
  unfold pydanticEdge at hc
  by_cases h1 : pyStrip re.source = ""
  · rw [if_pos h1] at hc
    cases hc
  · rw [if_neg h1] at hc
    by_cases h2 : pyStrip re.target = ""
    · rw [if_pos h2] at hc
      cases hc
    · rw [if_neg h2, h] at hc
      cases hc

/-- Inversion of a successful from_dict. -/
theorem from_dict_ok_inv {d : RawDoc} {g : FederatedGraph}
    (h : FederatedGraph.from_dict d = .ok g) :
    ∃ nodes edges, loadNodes [] d.nodes = .ok nodes ∧ loadEdges [] d.edges = .ok edges ∧
      g = ⟨nodes, edges, d.metadata⟩ := by
  unfold FederatedGraph.from_dict at h
  cases hn : loadNodes [] d.nodes with
  | error e =>
    rw [hn] at h
    cases h
  | ok nodes =>
    rw [hn] at h
    cases he : loadEdges [] d.edges with
    | error e =>
      rw [he] at h
      cases h
    | ok edges =>
      rw [he] at h
      cases h
      exact ⟨nodes, edges, rfl, rfl, rfl⟩

/-! ## Claim C3 -/

/-- The CONSUMES parallel edge a -> b. -/
def edgeABcon : Edge := ⟨"a", "b", .CONSUMES, [], none⟩

/-- Graph with the two parallel edges inserted CONSUMES first. -/
def graphMultiRev : FederatedGraph :=
  ⟨[("a", nodeA), ("b", nodeB)], [edgeABcon, edgeAB], []⟩

/-- Intermediate state holding only the CONSUMES edge. -/
def graphABcon : FederatedGraph := ⟨[("a", nodeA), ("b", nodeB)], [edgeABcon], []⟩

/-- graphAB with its nodes inserted in the opposite order. -/
def graphABswap : FederatedGraph := ⟨[("b", nodeB), ("a", nodeA)], [edgeAB], []⟩

set_option maxRecDepth 1000000

/-- C3 counterexample: two graphs with identical content — the same nodes
and the same multiset of parallel a -> b edges, both reachable through the
public API — hash differently because the stable edge sort keeps the
insertion order of edges sharing a (source, target) pair. -/
theorem C3_counterexample :
    graphAB.add_edge edgeABcon = .ok graphMulti ∧
    graphABcon.add_edge edgeAB = .ok graphMultiRev ∧
    graphMulti.nodes = graphMultiRev.nodes ∧
    graphMulti.edges.Perm graphMultiRev.edges ∧
    graphMulti.metadata = graphMultiRev.metadata ∧
    graphMulti.merkle_hash ≠ graphMultiRev.merkle_hash := by
  refine ⟨by decide, by decide, by decide, by decide, by decide, by decide⟩

/-- C3 (amended): merkle_hash is a 64-character lowercase-hex string; two
graphs with identical node, edge and metadata content hash identically
regardless of insertion order provided no (source, target) pair carries
more than one edge (with parallel edges the canonical form depends on their
relative insertion order — see the counterexample); and adding any node or
edge changes the canonical dictionary to_dict (hence the hash, short of a
SHA-256 collision). -/
theorem C3_amended_merkle (g1 g2 : FederatedGraph) :
    (g1.merkle_hash.length = 64 ∧ ∀ c ∈ g1.merkle_hash.data, c ∈ hexChars) ∧
    (g1.nodes.Perm g2.nodes → (g1.nodes.map (fun p => p.1)).Nodup →
      g1.edges.Perm g2.edges → (g1.edges.map (fun e => (e.source, e.target))).Nodup →
      g1.metadata.Perm g2.metadata → (g1.metadata.map (fun p => p.1)).Nodup →
      g1.merkle_hash = g2.merkle_hash) ∧
    (∀ n g3, g1.add_node n = .ok g3 → g3.to_dict ≠ g1.to_dict) ∧
    (∀ e g3, g1.add_edge e = .ok g3 → g3.to_dict ≠ g1.to_dict) := by
  refine ⟨⟨sha256Hex_length _, sha256Hex_hex _⟩, ?_, ?_, ?_⟩
  · intro hn hnk he hek hm hmk
    unfold FederatedGraph.merkle_hash
    rw [to_dict_eq_of_content_eq hn hnk he hek hm hmk]
  · intro n g3 hok heq
    have h3 := add_node_ok_inv hok
    have hlen := congrArg (fun d => d.nodes.length) heq
    simp only [] at hlen
    rw [to_dict_nodes_length, to_dict_nodes_length, h3] at hlen
    simp at hlen
  · intro e g3 hok heq
    have h3 := add_edge_ok_inv hok
    have hlen := congrArg (fun d => d.edges.length) heq
    simp only [] at hlen
    rw [to_dict_edges_length, to_dict_edges_length, h3] at hlen
    simp at hlen

theorem C3_witness :
    graphABswap.merkle_hash = graphAB.merkle_hash ∧ graphAB.merkle_hash.length = 64 :=
  ⟨(C3_amended_merkle graphABswap graphAB).2.1 (by decide) (by decide) (by decide)
      (by decide) (by decide) (by decide),
    (C3_amended_merkle graphAB graphAB).1.1⟩

/-! ## Claim C4 -/

/-- A well-tagged document whose single edge references absent nodes. -/
def badDoc : RawDoc := ⟨[], [], [⟨"x", "y", "DEPENDS_ON", [], none⟩]⟩

/-- The structurally invalid graph that loading badDoc produces. -/
def badGraph : FederatedGraph := ⟨[], [⟨"x", "y", .DEPENDS_ON, [], none⟩], []⟩

/-- A document with an unknown node type tag. -/
def badTagDoc : RawDoc := ⟨[], [("n", ⟨"n", "Widget", "n", []⟩)], []⟩

/-- A document with an unknown edge type tag. -/
def badEdgeTagDoc : RawDoc := ⟨[], [], [⟨"x", "y", "USES", [], none⟩]⟩

/-- C4 counterexample: a payload whose edge references nonexistent nodes is
loaded successfully by from_dict, and the returned graph fails validate() —
from_dict does not re-validate the structural invariants before returning. -/
theorem C4_counterexample :
    FederatedGraph.from_dict badDoc = .ok badGraph ∧ badGraph.validate ≠ [] := by
  refine ⟨by decide, by decide⟩

/-- C4 (amended): from_dict rejects every payload containing an unknown
node-type or edge-type enum tag (pydantic validation fails and the whole
document is rejected), but it does not re-validate the structural
invariants: it can return a graph whose edges dangle (validate() nonempty). -/
theorem C4_amended_from_dict (d : RawDoc) :
    ((∃ kv ∈ d.nodes, NodeType.fromValue kv.2.type = none) →
      ∀ g, FederatedGraph.from_dict d ≠ .ok g) ∧
    ((∃ re ∈ d.edges, EdgeType.fromValue re.edge_type = none) →
      ∀ g, FederatedGraph.from_dict d ≠ .ok g) ∧
    (FederatedGraph.from_dict badDoc = .ok badGraph ∧ badGraph.validate ≠ []) := by
  refine ⟨?_, ?_, by decide, by decide⟩
  · rintro ⟨kv, hkv, htag⟩ g hok
    obtain ⟨nodes, edges, hn, _, _⟩ := from_dict_ok_inv hok
    obtain ⟨n, hok2⟩ := loadNodes_ok_entries d.nodes [] nodes hn kv hkv
    exact pydanticNode_badTag htag n hok2
  · rintro ⟨re, hre, htag⟩ g hok
    obtain ⟨nodes, edges, _, he, _⟩ := from_dict_ok_inv hok
    obtain ⟨e, hok2⟩ := loadEdges_ok_entries d.edges [] edges he re hre
    exact pydanticEdge_badTag htag e hok2

theorem C4_witness :
    (∀ g, FederatedGraph.from_dict badTagDoc ≠ .ok g) ∧
    (∀ g, FederatedGraph.from_dict badEdgeTagDoc ≠ .ok g) :=
  ⟨(C4_amended_from_dict badTagDoc).1 ⟨("n", ⟨"n", "Widget", "n", []⟩), by decide, by decide⟩,
    (C4_amended_from_dict badEdgeTagDoc).2.1
      ⟨⟨"x", "y", "USES", [], none⟩, by decide, by decide⟩⟩

/-! ## Claim C6 -/

/-- C6: on a valid graph (unique node keys and pydantic-validated fields)
the round trip from_dict (to_dict g) succeeds with a graph holding the same
node bindings, the same edge multiset and the same metadata bindings, and
an identical merkle_hash. -/
theorem C6_roundtrip {g : FederatedGraph}
    (hkeys : (g.nodes.map (fun p => p.1)).Nodup)
    (hnodes : ∀ p ∈ g.nodes, ValidNode p.2)
    (hedges : ∀ e ∈ g.edges, ValidEdge e) :
    ∃ g2, FederatedGraph.from_dict g.to_dict = .ok g2 ∧
      g2.nodes.Perm g.nodes ∧ g2.edges.Perm g.edges ∧ g2.metadata.Perm g.metadata ∧
      g2.merkle_hash = g.merkle_hash := by
  have hnd2 : ((([] : List (String × Node)) ++ sortBy keyLt g.nodes).map
      (fun p => p.1)).Nodup := by
    rw [List.nil_append]
    have hperm : ((sortBy keyLt g.nodes).map (fun p => p.1)).Perm
        (g.nodes.map (fun p => p.1)) := (sortBy_perm keyLt g.nodes).map _
    exact hperm.nodup_iff.mpr hkeys
  have hload1 : loadNodes [] ((sortBy keyLt g.nodes).map (fun p => (p.1, rawOfNode p.2)))
      = .ok (sortBy keyLt g.nodes) := by
    have := loadNodes_roundtrip (sortBy keyLt g.nodes) [] hnd2
      (fun p hp => hnodes p ((sortBy_perm keyLt g.nodes).subset hp))
    rwa [List.nil_append] at this
  have hload2 : loadEdges [] ((sortBy edgeLt g.edges).map rawOfEdge)
      = .ok (sortBy edgeLt g.edges) := by
    have := loadEdges_roundtrip (sortBy edgeLt g.edges) []
      (fun e he2 => hedges e ((sortBy_perm edgeLt g.edges).subset he2))
    rwa [List.nil_append] at this
  refine ⟨⟨sortBy keyLt g.nodes, sortBy edgeLt g.edges, sortBy keyLt g.metadata⟩, ?_, ?_, ?_, ?_, ?_⟩
  · simp only [FederatedGraph.from_dict, FederatedGraph.to_dict]
    rw [hload1, hload2]
  · exact sortBy_perm keyLt g.nodes
  · exact sortBy_perm edgeLt g.edges
  · exact sortBy_perm keyLt g.metadata
  · have hto : FederatedGraph.to_dict
        ⟨sortBy keyLt g.nodes, sortBy edgeLt g.edges, sortBy keyLt g.metadata⟩ = g.to_dict := by
      unfold FederatedGraph.to_dict
      simp only []
      rw [sortBy_eq_self keyLt _ (sortBy_pairwise keyLt_asym keyLt_negtrans _),
        sortBy_eq_self edgeLt _ (sortBy_pairwise edgeLt_asym edgeLt_negtrans _),
        sortBy_eq_self keyLt _ (sortBy_pairwise keyLt_asym keyLt_negtrans _)]
    unfold FederatedGraph.merkle_hash
    rw [hto]

theorem C6_roundtrip_witness :
    ∃ g2, FederatedGraph.from_dict graphAB.to_dict = .ok g2 ∧
      g2.nodes.Perm graphAB.nodes ∧ g2.edges.Perm graphAB.edges ∧
      g2.metadata.Perm graphAB.metadata ∧ g2.merkle_hash = graphAB.merkle_hash :=
  C6_roundtrip (by decide) (by decide) (by decide)

end Frctl
